import Mathlib

set_option linter.unusedSectionVars false
set_option linter.unusedVariables false

/-!
Verification of the Profile HMM inference algorithms of `src/stats/profilehmm.rs`:
`forward_algorithm`, `backward` and `viterbi` of `impl ProfileHMM`.

Modelling conventions.

The source computes in logarithmic probability space over `f64` values
(`LogProb`).  Following the data model of the specification, a log-probability
is a real probability `p` represented as `ln p` on the extended reals, and its
operations are characterised purely by the underlying probability: log-space
addition `a + b` is multiplication of the underlying probabilities, the stable
merge `ln_add_exp` is addition of the underlying probabilities, `ln_zero` is
probability `0`, `ln_one` is probability `1`, and the order of log-space values
is the order of the underlying probabilities.  Since `p ↦ ln p` is an order
isomorphism, we embed a `LogProb` value shallowly as its underlying
probability, drawn from an arbitrary canonically ordered, linearly ordered
commutative semiring `R` (exact arithmetic standing in for floating point;
`ℝ≥0` and `ℚ≥0` are such semirings, and `ℕ` is a computable one used to
evaluate the development on concrete inputs).  The value is wrapped in a
structure so that `+` on `LogProb` denotes the log-space addition written in
the source, i.e. multiplication underneath.  `logSumExp` of a family is the
sum of the underlying probabilities.

Rust index expressions `v[i]` panic when out of bounds; every such access is
modelled by the `Option`-valued lookup `l[i]?`, sequenced in the order the
statements execute, so a run of an algorithm returns `none` exactly when the
source would abort with an out-of-bounds access (or, for the expression
`observations.len() - 1` on an empty sequence, an underflowing `usize`
subtraction, modelled by the checked subtraction `usub`).  The `for lo..hi`
loops of the source are modelled by the recursors `optMapRange` (a loop
pushing one element per iteration) and `optFoldRange` (a loop updating an
accumulator), which iterate in the same order as the source.
-/

/-- The carrier of underlying probabilities: a commutative semiring whose
order is linear and canonical (`0 ≤ x` for every `x`, as for the probability
`e^x` underlying any log-space value).  `ℕ`, `ℚ≥0` and `ℝ≥0` are instances. -/
class ProbCarrier (R : Type) extends CanonicallyOrderedCommSemiring R, LinearOrder R

instance : ProbCarrier ℕ :=
  { (inferInstance : CanonicallyOrderedCommSemiring ℕ), (inferInstance : LinearOrder ℕ) with }

instance : ProbCarrier ℚ≥0 :=
  { (inferInstance : CanonicallyOrderedCommSemiring ℚ≥0), (inferInstance : LinearOrder ℚ≥0) with }

/-- A log-probability (`LogProb` of the source), embedded as its underlying
probability.  Log-space addition (`+`, as written in the source) multiplies
the underlying probabilities. -/
structure LogProb (R : Type) where
  p : R
deriving DecidableEq

namespace LogProb

variable {R : Type} [ProbCarrier R]

/-- Log-space addition of the source (`impl Add for LogProb`): the underlying
probabilities multiply. -/
instance : Add (LogProb R) := ⟨fun a b => ⟨a.p * b.p⟩⟩

/-- Stable log-sum-exp merge of two values (`LogProb::ln_add_exp`): the
underlying probabilities add. -/
def ln_add_exp (a b : LogProb R) : LogProb R := ⟨a.p + b.p⟩

/-- Probability zero (`LogProb::ln_zero`, negative infinity in log space). -/
def ln_zero : LogProb R := ⟨0⟩

/-- Probability one (`LogProb::ln_one`, zero in log space). -/
def ln_one : LogProb R := ⟨1⟩

/-- The total order of `LogProb` is the order of underlying probabilities. -/
instance : LT (LogProb R) := ⟨fun a b => a.p < b.p⟩

instance : LE (LogProb R) := ⟨fun a b => a.p ≤ b.p⟩

instance (a b : LogProb R) : Decidable (a < b) :=
  inferInstanceAs (Decidable (a.p < b.p))

instance (a b : LogProb R) : Decidable (a ≤ b) :=
  inferInstanceAs (Decidable (a.p ≤ b.p))

end LogProb

/-- Stable aggregation of a family of log-probabilities
(`logSumExp`, i.e. `ln Σᵢ exp aᵢ`): the sum of the underlying probabilities. -/
def logSumExp {R : Type} [ProbCarrier R] (l : List (LogProb R)) : LogProb R :=
  ⟨(l.map LogProb.p).sum⟩

/-- The model type `pub struct ProfileHMM` of the source. -/
structure ProfileHMM (R : Type) where
  /-- number of possible observations -/
  observation_count : Nat
  /-- probability that x is the initial state -/
  initial_states_prob : List (LogProb R)
  /-- probability of transiting from state x to y -/
  state_transitions : List (List (LogProb R))
  /-- probability of emiting observation y at state x -/
  emission_matrix : List (List (LogProb R))

/-- A panicking two-dimensional index access `m[i][j]` of the source:
`none` models the out-of-bounds panic. -/
def idx2 {α : Type} (m : List (List α)) (i j : Nat) : Option α :=
  m[i]?.bind fun row => row[j]?

/-- Checked `usize` subtraction: `a - b` panics on underflow. -/
def usub (a b : Nat) : Option Nat := if b ≤ a then some (a - b) else none

/-- A `for i in 0..n` loop pushing one element per iteration, with panicking
accesses in the body: the list of pushed elements, or `none` as soon as one
iteration's body panics. -/
def optMapRange {α : Type} (f : Nat → Option α) : Nat → Option (List α)
  | 0 => some []
  | n + 1 => do
    let l ← optMapRange f n
    let x ← f n
    pure (l ++ [x])

/-- A `for i in 0..n` loop updating an accumulator, with panicking accesses in
the body: the final accumulator, or `none` as soon as one iteration's body
panics. -/
def optFoldRange {α : Type} (f : α → Nat → Option α) (init : α) : Nat → Option α
  | 0 => some init
  | n + 1 => do
    let a ← optFoldRange f init n
    f a n

/-- The pure counterpart of `optFoldRange`, used to state what a loop computes
once all accesses in its body are known to be in bounds. -/
def foldRange {α : Type} (g : α → Nat → α) (init : α) : Nat → α
  | 0 => init
  | n + 1 => g (foldRange g init n) n

namespace ProfileHMM

variable {R : Type} [ProbCarrier R]

/-- The constructor `ProfileHMM::new` of the source. -/
def new : ProfileHMM R :=
  { observation_count := 0
    initial_states_prob := []
    state_transitions := []
    emission_matrix := [] }

/-- The state count, `let state_count = self.initial_states_prob.len()` in the
source. -/
def stateCount (M : ProfileHMM R) : Nat := M.initial_states_prob.length

/-- One summand of the inner loop of `forward_algorithm` for `time > 0`:
`forward_table[time - 1][prev_state] + self.state_transitions[prev_state][state]`. -/
def forwardSummand (M : ProfileHMM R) (table : List (List (LogProb R)))
    (time prev_state state : Nat) : Option (LogProb R) := do
  let f ← idx2 table (time - 1) prev_state
  let t ← idx2 M.state_transitions prev_state state
  pure (f + t)

/-- The value of cell `forward_table[time][state]` before the emission factor
is folded in: the cell starts at `ln_zero`, is set to
`initial_states_prob[state]` when `time == 0` and otherwise accumulates
`ln_add_exp` of `forwardSummand` over `prev_state`. -/
def forwardBase (M : ProfileHMM R) (table : List (List (LogProb R)))
    (time state : Nat) : Option (LogProb R) :=
  if time = 0 then
    M.initial_states_prob[state]?
  else
    optFoldRange
      (fun acc prev_state => (M.forwardSummand table time prev_state state).map acc.ln_add_exp)
      LogProb.ln_zero M.stateCount

/-- One cell `forward_table[time][state]` of `forward_algorithm`: the base
value of `forwardBase`, finally log-space-added to
`emission_matrix[state][observations[time]]`. -/
def forwardCell (M : ProfileHMM R) (obs : List Nat) (table : List (List (LogProb R)))
    (time state : Nat) : Option (LogProb R) := do
  let base ← M.forwardBase table time state
  let o ← obs[time]?
  let e ← idx2 M.emission_matrix state o
  pure (base + e)

/-- The outer loop of `forward_algorithm` after `n` iterations: rows
`0, …, n - 1` of `forward_table` (`time` ascending, `state` ascending within a
row). -/
def forwardTableN (M : ProfileHMM R) (obs : List Nat) (n : Nat) :
    Option (List (List (LogProb R))) :=
  optFoldRange
    (fun table time =>
      (optMapRange (fun state => M.forwardCell obs table time state) M.stateCount).map
        fun row => table ++ [row])
    [] n

/-- The double loop of `forward_algorithm` filling `forward_table` row by row:
all `observations.len()` iterations of the outer loop. -/
def forwardTable (M : ProfileHMM R) (obs : List Nat) : Option (List (List (LogProb R))) :=
  M.forwardTableN obs obs.length

/-- One summand of the final aggregation loop of `forward_algorithm`:
`forward_table[state][state_count - 1] + self.state_transitions[state][state_count]`
(the first index of `forward_table` is the `state` loop variable, exactly as in
the source). -/
def forwardFinalSummand (M : ProfileHMM R) (ft : List (List (LogProb R)))
    (state : Nat) : Option (LogProb R) := do
  let f ← idx2 ft state (M.stateCount - 1)
  let t ← idx2 M.state_transitions state M.stateCount
  pure (f + t)

/-- The source's `forward_algorithm`: fills `forward_table`, then starting from
`ln_zero` accumulates `ln_add_exp` of `forwardFinalSummand` over all states into
the output slot `*sequence_prob`, and returns the table together with the value
written to the slot. -/
def forward_algorithm (M : ProfileHMM R) (obs : List Nat) :
    Option (List (List (LogProb R)) × LogProb R) := do
  let ft ← M.forwardTable obs
  let prob ← optFoldRange
    (fun acc state => (M.forwardFinalSummand ft state).map acc.ln_add_exp)
    LogProb.ln_zero M.stateCount
  pure (ft, prob)

/-- One summand of the inner loop of `backward` for a non-final `time`:
`backward_table[time + 1][next_state] + self.state_transitions[state][next_state]
+ self.emission_matrix[next_state][observations[time + 1]]`.  The rows of the
table with index greater than `time` are passed as `suffix`, whose head is row
`time + 1`. -/
def backwardSummand (M : ProfileHMM R) (obs : List Nat)
    (suffix : List (List (LogProb R))) (time state next_state : Nat) :
    Option (LogProb R) := do
  let b ← idx2 suffix 0 next_state
  let t ← idx2 M.state_transitions state next_state
  let o ← obs[time + 1]?
  let e ← idx2 M.emission_matrix next_state o
  pure (b + t + e)

/-- One cell `backward_table[time][state]` of `backward`: `ln_one` on the last
row, otherwise the `ln_add_exp` accumulation of `backwardSummand` over
`next_state` starting from `ln_zero`. -/
def backwardCell (M : ProfileHMM R) (obs : List Nat)
    (suffix : List (List (LogProb R))) (time state : Nat) : Option (LogProb R) :=
  if time + 1 = obs.length then
    pure LogProb.ln_one
  else
    optFoldRange
      (fun acc next_state => (M.backwardSummand obs suffix time state next_state).map
        acc.ln_add_exp)
      LogProb.ln_zero M.stateCount

/-- The loop of `backward`, `time` descending: after `k` iterations the rows
for times `obs.length - k, …, obs.length - 1` have been produced (`row :: rest`
keeps the table in ascending `time` order, mirroring in-place assignment into
the preallocated table of the source). -/
def backwardSuffix (M : ProfileHMM R) (obs : List Nat) :
    Nat → Option (List (List (LogProb R)))
  | 0 => some []
  | k + 1 => do
    let rest ← backwardSuffix M obs k
    let row ← optMapRange
      (fun state => M.backwardCell obs rest (obs.length - (k + 1)) state)
      M.initial_states_prob.length
    pure (row :: rest)

/-- The source's `backward`: runs the descending loop over all
`observations.len()` times and returns the completed table. -/
def backward (M : ProfileHMM R) (obs : List Nat) : Option (List (List (LogProb R))) :=
  backwardSuffix M obs obs.length

/-- The first-column loop of `viterbi`:
`path_segment.push(self.initial_states_prob[i] + self.emission_matrix[i][observations[0]])`. -/
def viterbiRow0 (M : ProfileHMM R) (obs : List Nat) : Option (List (LogProb R)) :=
  optMapRange
    (fun i => do
      let init ← M.initial_states_prob[i]?
      let o ← obs[0]?
      let e ← idx2 M.emission_matrix i o
      pure (init + e))
    M.stateCount

/-- One candidate value of the innermost loop of `viterbi`:
`let tmp = path_finder[i - 1][k] + self.state_transitions[k][j]`. -/
def viterbiSummand (M : ProfileHMM R) (pf : List (List (LogProb R)))
    (i k j : Nat) : Option (LogProb R) := do
  let f ← idx2 pf (i - 1) k
  let t ← idx2 M.state_transitions k j
  pure (f + t)

/-- The innermost loop of `viterbi` for column `i` and destination state `j`:
starting from back-pointer `0` and value `ln_zero`, each `k` with
`tmp > path_segment[j]` (strict comparison) overwrites both the recorded
previous state and the recorded value. -/
def viterbiCellMax (M : ProfileHMM R) (pf : List (List (LogProb R)))
    (i j : Nat) : Option (Nat × LogProb R) :=
  optFoldRange
    (fun best k => (M.viterbiSummand pf i k j).map
      fun tmp => if best.2 < tmp then (k, tmp) else best)
    (0, LogProb.ln_zero) M.stateCount

/-- One column-`i` cell of `viterbi` for destination state `j`: the winning
transition of `viterbiCellMax`, its value then log-space-added to
`self.emission_matrix[j][observations[i]]` ("scoring"). -/
def viterbiCell (M : ProfileHMM R) (obs : List Nat) (pf : List (List (LogProb R)))
    (i j : Nat) : Option (Nat × LogProb R) := do
  let best ← M.viterbiCellMax pf i j
  let o ← obs[i]?
  let e ← idx2 M.emission_matrix j o
  pure (best.1, best.2 + e)

/-- The column loop `for i in 1..observations.len()` of `viterbi`, producing
the pair of `path_finder` and `previous_state`.  `previous_state` starts with
the empty row pushed before the first-column loop; iteration `t` of the fold
handles column `i = t + 1`. -/
def viterbiTablesN (M : ProfileHMM R) (obs : List Nat) (n : Nat) :
    Option (List (List (LogProb R)) × List (List Nat)) := do
  let row0 ← M.viterbiRow0 obs
  optFoldRange
    (fun tabs t =>
      (optMapRange (fun j => M.viterbiCell obs tabs.1 (t + 1) j) M.stateCount).map
        fun cells => (tabs.1 ++ [cells.map Prod.snd], tabs.2 ++ [cells.map Prod.fst]))
    ([row0], [[]]) n

/-- The full column loop of `viterbi`: all `observations.len() - 1` iterations,
handling columns `1, …, observations.len() - 1`. -/
def viterbiTables (M : ProfileHMM R) (obs : List Nat) :
    Option (List (List (LogProb R)) × List (List Nat)) :=
  M.viterbiTablesN obs (obs.length - 1)

/-- The termination loop of `viterbi`: scanning all states `i`, any `i` with
`path_finder[observations.len() - 1][i] >= *sequence_prob` (non-strict
comparison) overwrites both the recorded final state and the output slot,
which starts at `ln_zero`. -/
def viterbiFinal (pf : List (List (LogProb R))) (len sc : Nat) :
    Option (Nat × LogProb R) :=
  optFoldRange
    (fun best i => (idx2 pf (len - 1) i).map
      fun v => if best.2 ≤ v then (i, v) else best)
    (0, LogProb.ln_zero) sc

/-- The back-pointer traversal
`result_states[i] = previous_state[i + 1][result_states[i + 1]]`, `i`
descending: `btPath ps i s` is the decoded path for positions `0, …, i` given
that position `i` holds state `s`. -/
def btPath (ps : List (List Nat)) : Nat → Nat → Option (List Nat)
  | 0, s => some [s]
  | i + 1, s => do
    let k ← idx2 ps (i + 1) s
    let rest ← btPath ps i k
    pure (rest ++ [s])

/-- The source's `viterbi`: builds the DP tables, runs the termination scan
(writing the output slot), computes the loop bound `observations.len() - 1`
of the back-pointer traversal (a panicking `usize` subtraction), follows the
back-pointers, and returns the decoded path together with the value written to
the output slot. -/
def viterbi (M : ProfileHMM R) (obs : List Nat) : Option (List Nat × LogProb R) := do
  let tabs ← M.viterbiTables obs
  let fin ← viterbiFinal tabs.1 obs.length M.stateCount
  let last ← usub obs.length 1
  let path ← btPath tabs.2 last fin.1
  pure (path, fin.2)

end ProfileHMM

/-- Well-formed dimensions of a model, as documented in the data model of the
specification: `state_transitions` is `state_count ×  (state_count + 1)` and
`emission_matrix` is `state_count × observation_count`. -/
def ProfileHMM.WF {R : Type} [ProbCarrier R] (M : ProfileHMM R) : Prop :=
  M.state_transitions.length = M.stateCount ∧
  (∀ row ∈ M.state_transitions, row.length = M.stateCount + 1) ∧
  M.emission_matrix.length = M.stateCount ∧
  (∀ row ∈ M.emission_matrix, row.length = M.observation_count)

/-- All symbols of an observation sequence lie in `[0, observation_count)`. -/
def ProfileHMM.InRange {R : Type} [ProbCarrier R] (M : ProfileHMM R) (obs : List Nat) : Prop :=
  ∀ o ∈ obs, o < M.observation_count

/-- The model with the distinguished "end" column `state_transitions[·][state_count]`
removed; an algorithm that never reads the end column returns the same result
on `truncTrans M` as on `M`. -/
def ProfileHMM.truncTrans {R : Type} [ProbCarrier R] (M : ProfileHMM R) : ProfileHMM R :=
  { M with state_transitions := M.state_transitions.map fun row => row.take M.stateCount }

/-- Normalization of the probability tables (caller-enforced invariant of the
specification): the initial vector, every transition row (all
`state_count + 1` entries) and every emission row sum to `1` in probability
space. -/
def ProfileHMM.Normalized {R : Type} [ProbCarrier R] (M : ProfileHMM R) : Prop :=
  (M.initial_states_prob.map LogProb.p).sum = 1 ∧
  (∀ row ∈ M.state_transitions, (row.map LogProb.p).sum = 1) ∧
  (∀ row ∈ M.emission_matrix, (row.map LogProb.p).sum = 1)

instance {R : Type} [ProbCarrier R] (M : ProfileHMM R) : Decidable M.WF := by
  unfold ProfileHMM.WF
  infer_instance

instance {R : Type} [ProbCarrier R] (M : ProfileHMM R) (obs : List Nat) :
    Decidable (M.InRange obs) := by
  unfold ProfileHMM.InRange
  infer_instance

instance {R : Type} [ProbCarrier R] (M : ProfileHMM R) : Decidable M.Normalized := by
  unfold ProfileHMM.Normalized
  infer_instance

/-- The selection fold of the innermost `viterbi` loop: starting from
`(0, ln_zero)`, index `k` overwrites the state when its value is STRICTLY
greater than the recorded one. -/
def amax {R : Type} [ProbCarrier R] (v : Nat → LogProb R) : Nat → Nat × LogProb R :=
  foldRange (fun best k => if best.2 < v k then (k, v k) else best) (0, LogProb.ln_zero)

/-- The selection fold of the `viterbi` termination scan: starting from
`(0, ln_zero)`, index `i` overwrites the state when its value is greater than
OR EQUAL to the recorded one. -/
def gmax {R : Type} [ProbCarrier R] (v : Nat → LogProb R) : Nat → Nat × LogProb R :=
  foldRange (fun best i => if best.2 ≤ v i then (i, v i) else best) (0, LogProb.ln_zero)

/-- A concrete two-state model over `ℕ`, used to evaluate the development on
explicit inputs. -/
def exampleModel : ProfileHMM ℕ :=
  { observation_count := 2
    initial_states_prob := [⟨2⟩, ⟨3⟩]
    state_transitions := [[⟨1⟩, ⟨2⟩, ⟨4⟩], [⟨3⟩, ⟨5⟩, ⟨7⟩]]
    emission_matrix := [[⟨2⟩, ⟨3⟩], [⟨5⟩, ⟨1⟩]] }

/-- A concrete normalized (one-hot) two-state model over `ℕ`. -/
def exampleModelNorm : ProfileHMM ℕ :=
  { observation_count := 2
    initial_states_prob := [⟨1⟩, ⟨0⟩]
    state_transitions := [[⟨0⟩, ⟨1⟩, ⟨0⟩], [⟨1⟩, ⟨0⟩, ⟨0⟩]]
    emission_matrix := [[⟨1⟩, ⟨0⟩], [⟨0⟩, ⟨1⟩]] }

/-! Total table reads, used only to STATE properties of values whose accesses
are already known to be in bounds. -/

/-- Total read of a two-dimensional log-probability table. -/
def tget {R : Type} [ProbCarrier R] (m : List (List (LogProb R))) (i j : Nat) : LogProb R :=
  (m.getD i []).getD j LogProb.ln_zero

/-- Total read of a one-dimensional log-probability table. -/
def tget1 {R : Type} [ProbCarrier R] (l : List (LogProb R)) (i : Nat) : LogProb R :=
  l.getD i LogProb.ln_zero

/-- Total read of a two-dimensional table of state indices. -/
def tgetN (m : List (List Nat)) (i j : Nat) : Nat :=
  (m.getD i []).getD j 0

/-- The log-space sum of a list of log-probabilities (the plain `+` of the
source, iterated): the product of the underlying probabilities. -/
def logSum {R : Type} [ProbCarrier R] (l : List (LogProb R)) : LogProb R :=
  ⟨(l.map LogProb.p).prod⟩

/-- The log-probability of a given state path for a given observation
sequence, computed directly from the model parameters:
`initial_states_prob[path[0]]` plus the sum of
`state_transitions[path[i-1]][path[i]]` for `i ≥ 1` plus the sum of
`emission_matrix[path[i]][observations[i]]` over all positions. -/
def ProfileHMM.pathLogProb {R : Type} [ProbCarrier R] (M : ProfileHMM R)
    (obs path : List Nat) : LogProb R :=
  tget1 M.initial_states_prob (path.getD 0 0)
  + logSum ((List.range (obs.length - 1)).map
      fun i => tget M.state_transitions (path.getD i 0) (path.getD (i + 1) 0))
  + logSum ((List.range obs.length).map
      fun i => tget M.emission_matrix (path.getD i 0) (obs.getD i 0))

/-! Basic laws of the log-probability operations. -/

namespace LogProb

variable {R : Type} [ProbCarrier R]

@[simp] theorem add_p (a b : LogProb R) : (a + b).p = a.p * b.p := rfl

@[simp] theorem ln_add_exp_p (a b : LogProb R) : (a.ln_add_exp b).p = a.p + b.p := rfl

@[simp] theorem ln_zero_p : (ln_zero : LogProb R).p = 0 := rfl

@[simp] theorem ln_one_p : (ln_one : LogProb R).p = 1 := rfl

@[simp] theorem lt_iff_p {a b : LogProb R} : a < b ↔ a.p < b.p := Iff.rfl

@[simp] theorem le_iff_p {a b : LogProb R} : a ≤ b ↔ a.p ≤ b.p := Iff.rfl

@[ext] theorem ext {a b : LogProb R} (h : a.p = b.p) : a = b := by
  cases a; cases b; cases h; rfl

@[simp] theorem mk_p (x : R) : (LogProb.mk x).p = x := rfl

end LogProb

/-! General helper lemmas about list reads and the loop recursors. -/

theorem getD_of_getElem?_eq_some {α : Type} {l : List α} {i : Nat} {x : α} (d : α)
    (h : l[i]? = some x) : l.getD i d = x := by
  rw [List.getD_eq_getElem?_getD, h]; rfl

theorem mem_of_getElem?_eq_some {α : Type} {l : List α} {i : Nat} {x : α}
    (h : l[i]? = some x) : x ∈ l := by
  obtain ⟨hlt, he⟩ := List.getElem?_eq_some.mp h
  exact he ▸ l.getElem_mem hlt

theorem getD_append_lt {α : Type} {l : List α} {x : α} {i : Nat} (d : α)
    (h : i < l.length) : (l ++ [x]).getD i d = l.getD i d := by
  rw [List.getD_eq_getElem?_getD, List.getD_eq_getElem?_getD, List.getElem?_append, if_pos h]

theorem getD_append_len {α : Type} {l : List α} {x : α} (d : α) :
    (l ++ [x]).getD l.length d = x :=
  getD_of_getElem?_eq_some d (l.getElem?_concat_length x)

theorem getD2_of_idx2_eq_some {α : Type} {m : List (List α)} {i j : Nat} {v : α} (d : α)
    (h : idx2 m i j = some v) : (m.getD i []).getD j d = v := by
  obtain ⟨row, hrow, hv⟩ := Option.bind_eq_some.mp h
  rw [getD_of_getElem?_eq_some [] hrow]
  exact getD_of_getElem?_eq_some d hv

theorem tget_of_idx2_eq_some {R : Type} [ProbCarrier R] {m : List (List (LogProb R))}
    {i j : Nat} {v : LogProb R} (h : idx2 m i j = some v) : tget m i j = v :=
  getD2_of_idx2_eq_some LogProb.ln_zero h

theorem tgetN_of_idx2_eq_some {m : List (List Nat)} {i j : Nat} {v : Nat}
    (h : idx2 m i j = some v) : tgetN m i j = v :=
  getD2_of_idx2_eq_some 0 h

theorem idx2_isSome {α : Type} {m : List (List α)} {i j : Nat} {row : List α}
    (hrow : m[i]? = some row) (hj : j < row.length) : (idx2 m i j).isSome := by
  unfold idx2
  rw [hrow, Option.some_bind, List.getElem?_eq_getElem hj]
  rfl

theorem optMapRange_some_length {α : Type} {f : Nat → Option α} :
    ∀ {n : Nat} {l : List α}, optMapRange f n = some l → l.length = n := by
  intro n
  induction n with
  | zero => intro l h; simp only [optMapRange, Option.some_inj] at h; subst h; rfl
  | succ n ih =>
    intro l h
    simp only [optMapRange, Option.bind_eq_bind, Option.bind_eq_some, Option.pure_def, Option.some_inj] at h
    obtain ⟨l', hl', x, hx, hcat⟩ := h
    subst hcat
    simp [ih hl']

theorem optMapRange_some_getElem? {α : Type} {f : Nat → Option α} :
    ∀ {n : Nat} {l : List α}, optMapRange f n = some l →
      ∀ i, i < n → ∃ x, f i = some x ∧ l[i]? = some x := by
  intro n
  induction n with
  | zero => intro l _ i hi; omega
  | succ n ih =>
    intro l h i hi
    simp only [optMapRange, Option.bind_eq_bind, Option.bind_eq_some, Option.pure_def, Option.some_inj] at h
    obtain ⟨l', hl', x, hx, hcat⟩ := h
    subst hcat
    have hlen : l'.length = n := optMapRange_some_length hl'
    rcases Nat.lt_or_ge i n with hin | hin
    · obtain ⟨y, hy, hget⟩ := ih hl' i hin
      exact ⟨y, hy, by rw [List.getElem?_append, if_pos (hlen ▸ hin)]; exact hget⟩
    · have : i = n := by omega
      subst this
      exact ⟨x, hx, by rw [← hlen]; exact l'.getElem?_concat_length x⟩

theorem optMapRange_isSome {α : Type} {f : Nat → Option α} :
    ∀ {n : Nat}, (∀ i, i < n → (f i).isSome) → (optMapRange f n).isSome := by
  intro n
  induction n with
  | zero => intro _; simp [optMapRange]
  | succ n ih =>
    intro h
    obtain ⟨l, hl⟩ := Option.isSome_iff_exists.mp (ih fun i hi => h i (Nat.lt_succ_of_lt hi))
    obtain ⟨x, hx⟩ := Option.isSome_iff_exists.mp (h n n.lt_succ_self)
    simp [optMapRange, hl, hx]

theorem optMapRange_eq_none {α : Type} {f : Nat → Option α} :
    ∀ {n i : Nat}, i < n → f i = none → optMapRange f n = none := by
  intro n
  induction n with
  | zero => intro i hi; omega
  | succ n ih =>
    intro i hi hnone
    rcases Nat.lt_or_ge i n with hin | hin
    · simp [optMapRange, ih hin hnone]
    · have hin' : i = n := by omega
      rw [hin'] at hnone
      cases hrec : optMapRange f n <;>
        simp [optMapRange, Option.bind_eq_bind, hrec, hnone]

theorem optMapRange_congr {α : Type} {f g : Nat → Option α} :
    ∀ {n : Nat}, (∀ i, i < n → f i = g i) → optMapRange f n = optMapRange g n := by
  intro n
  induction n with
  | zero => intro _; rfl
  | succ n ih =>
    intro h
    simp only [optMapRange]
    rw [ih fun i hi => h i (Nat.lt_succ_of_lt hi), h n n.lt_succ_self]

theorem optFoldRange_congr {α : Type} {f g : α → Nat → Option α} {init : α} :
    ∀ {n : Nat}, (∀ a k, k < n → f a k = g a k) → optFoldRange f init n = optFoldRange g init n := by
  intro n
  induction n with
  | zero => intro _; rfl
  | succ n ih =>
    intro h
    simp only [optFoldRange]
    rw [ih fun a k hk => h a k (Nat.lt_succ_of_lt hk)]
    cases optFoldRange g init n with
    | none => rfl
    | some a => simp only [Option.bind_eq_bind, Option.some_bind]; exact h a n n.lt_succ_self

theorem optFoldRange_map_some {α β : Type} {h : Nat → Option β} {g : α → Nat → β → α}
    {v : Nat → β} {init : α} :
    ∀ {n : Nat}, (∀ k, k < n → h k = some (v k)) →
      optFoldRange (fun a k => (h k).map (g a k)) init n
        = some (foldRange (fun a k => g a k (v k)) init n) := by
  intro n
  induction n with
  | zero => intro _; rfl
  | succ n ih =>
    intro hv
    simp only [optFoldRange, foldRange]
    rw [ih fun k hk => hv k (Nat.lt_succ_of_lt hk)]
    simp [hv n n.lt_succ_self]

theorem optFoldRange_map_eq_none {α β : Type} {h : Nat → Option β} {g : α → Nat → β → α}
    {init : α} :
    ∀ {n k : Nat}, k < n → h k = none →
      optFoldRange (fun a k => (h k).map (g a k)) init n = none := by
  intro n
  induction n with
  | zero => intro k hk; omega
  | succ n ih =>
    intro k hk hnone
    rcases Nat.lt_or_ge k n with hkn | hkn
    · simp [optFoldRange, ih hkn hnone]
    · have hkn' : k = n := by omega
      rw [hkn'] at hnone
      cases hrec : optFoldRange (fun a k => (h k).map (g a k)) init n <;>
        simp [optFoldRange, Option.bind_eq_bind, hrec, hnone]

theorem optFoldRange_map_isSome {α β : Type} {h : Nat → Option β} {g : α → Nat → β → α}
    {init : α} :
    ∀ {n : Nat}, (∀ k, k < n → (h k).isSome) →
      (optFoldRange (fun a k => (h k).map (g a k)) init n).isSome := by
  intro n
  induction n with
  | zero => intro _; simp [optFoldRange]
  | succ n ih =>
    intro hs
    obtain ⟨a, ha⟩ := Option.isSome_iff_exists.mp (ih fun k hk => hs k (Nat.lt_succ_of_lt hk))
    obtain ⟨x, hx⟩ := Option.isSome_iff_exists.mp (hs n n.lt_succ_self)
    simp [optFoldRange, ha, hx]

/-! Sums over index ranges, and the two argmax-selection folds of `viterbi`. -/

theorem LogProb.ln_zero_le {R : Type} [ProbCarrier R] (a : LogProb R) :
    LogProb.ln_zero ≤ a :=
  LogProb.le_iff_p.mpr (zero_le a.p)

theorem sum_map_listRange {R : Type} [ProbCarrier R] (g : Nat → R) :
    ∀ n : Nat, ((List.range n).map g).sum = ∑ i ∈ Finset.range n, g i := by
  intro n
  induction n with
  | zero => simp
  | succ n ih => rw [List.range_succ, Finset.sum_range_succ]; simp [ih]

theorem logSumExp_map_range {R : Type} [ProbCarrier R] (f : Nat → LogProb R) (n : Nat) :
    logSumExp ((List.range n).map f) = ⟨∑ k ∈ Finset.range n, (f k).p⟩ := by
  unfold logSumExp
  rw [List.map_map]
  exact congrArg LogProb.mk (sum_map_listRange _ n)

theorem foldRange_ln_add_exp {R : Type} [ProbCarrier R] (v : Nat → LogProb R)
    (init : LogProb R) :
    ∀ n : Nat, foldRange (fun a k => a.ln_add_exp (v k)) init n
      = ⟨init.p + ∑ k ∈ Finset.range n, (v k).p⟩ := by
  intro n
  induction n with
  | zero => apply LogProb.ext; simp [foldRange]
  | succ n ih =>
    rw [foldRange, ih, Finset.sum_range_succ]
    apply LogProb.ext
    simp [add_assoc]

theorem amax_le {R : Type} [ProbCarrier R] {v : Nat → LogProb R} :
    ∀ {n k : Nat}, k < n → v k ≤ (amax v n).2 := by
  intro n
  induction n with
  | zero => intro k hk; omega
  | succ n ih =>
    intro k hk
    simp only [amax, foldRange] at ih ⊢
    split_ifs with hcmp
    · rcases Nat.lt_or_ge k n with hkn | hkn
      · exact le_of_lt (lt_of_le_of_lt (ih hkn) hcmp)
      · have : k = n := by omega
        subst this; exact le_refl _
    · rcases Nat.lt_or_ge k n with hkn | hkn
      · exact ih hkn
      · have : k = n := by omega
        subst this
        exact not_lt.mp hcmp

theorem amax_attains {R : Type} [ProbCarrier R] {v : Nat → LogProb R} :
    ∀ {n : Nat}, 0 < n → (amax v n).1 < n ∧ v (amax v n).1 = (amax v n).2 := by
  intro n
  induction n with
  | zero => intro h; omega
  | succ n ih =>
    intro _
    simp only [amax, foldRange] at ih ⊢
    split_ifs with hcmp
    · exact ⟨n.lt_succ_self, rfl⟩
    · rcases Nat.eq_zero_or_pos n with hn | hn
      · subst hn
        simp only [foldRange] at hcmp ⊢
        refine ⟨Nat.zero_lt_one, ?_⟩
        have h0 : (v 0).p ≤ 0 := by simpa using not_lt.mp hcmp
        apply LogProb.ext
        simpa using nonpos_iff_eq_zero.mp h0
      · obtain ⟨h1, h2⟩ := ih hn
        exact ⟨Nat.lt_succ_of_lt h1, h2⟩

theorem amax_least {R : Type} [ProbCarrier R] {v : Nat → LogProb R} :
    ∀ {n k : Nat}, k < (amax v n).1 → v k < (amax v n).2 := by
  intro n
  induction n with
  | zero => intro k hk; simp only [amax, foldRange] at hk; omega
  | succ n ih =>
    intro k hk
    simp only [amax, foldRange] at ih hk ⊢
    split_ifs with hcmp
    · rw [if_pos hcmp] at hk
      exact lt_of_le_of_lt (amax_le (by simpa [amax] using hk)) hcmp
    · rw [if_neg hcmp] at hk
      exact ih hk

theorem gmax_le {R : Type} [ProbCarrier R] {v : Nat → LogProb R} :
    ∀ {n k : Nat}, k < n → v k ≤ (gmax v n).2 := by
  intro n
  induction n with
  | zero => intro k hk; omega
  | succ n ih =>
    intro k hk
    simp only [gmax, foldRange] at ih ⊢
    split_ifs with hcmp
    · rcases Nat.lt_or_ge k n with hkn | hkn
      · exact le_trans (ih hkn) hcmp
      · have : k = n := by omega
        subst this; exact le_refl _
    · rcases Nat.lt_or_ge k n with hkn | hkn
      · exact ih hkn
      · have : k = n := by omega
        subst this
        exact le_of_lt (not_le.mp hcmp)

theorem gmax_attains {R : Type} [ProbCarrier R] {v : Nat → LogProb R} :
    ∀ {n : Nat}, 0 < n → (gmax v n).1 < n ∧ v (gmax v n).1 = (gmax v n).2 := by
  intro n
  induction n with
  | zero => intro h; omega
  | succ n ih =>
    intro _
    simp only [gmax, foldRange] at ih ⊢
    split_ifs with hcmp
    · exact ⟨n.lt_succ_self, rfl⟩
    · rcases Nat.eq_zero_or_pos n with hn | hn
      · subst hn
        exact absurd (LogProb.ln_zero_le (v 0)) hcmp
      · obtain ⟨h1, h2⟩ := ih hn
        exact ⟨Nat.lt_succ_of_lt h1, h2⟩

theorem gmax_greatest {R : Type} [ProbCarrier R] {v : Nat → LogProb R} :
    ∀ {n k : Nat}, (gmax v n).1 < k → k < n → v k < (gmax v n).2 := by
  intro n
  induction n with
  | zero => intro k _ hk; omega
  | succ n ih =>
    intro k hk1 hk2
    simp only [gmax, foldRange] at ih hk1 ⊢
    split_ifs with hcmp
    · rw [if_pos hcmp] at hk1
      omega
    · rw [if_neg hcmp] at hk1
      rcases Nat.lt_or_ge k n with hkn | hkn
      · exact ih hk1 hkn
      · have : k = n := by omega
        subst this
        exact not_le.mp hcmp

/-! Characterisation of the forward table and of the forward aggregation. -/

theorem tget_append_lt {R : Type} [ProbCarrier R] {m : List (List (LogProb R))}
    {row : List (LogProb R)} {i j : Nat} (h : i < m.length) :
    tget (m ++ [row]) i j = tget m i j := by
  unfold tget
  rw [getD_append_lt [] h]

namespace ProfileHMM

variable {R : Type} [ProbCarrier R]

theorem forwardSummand_eq_some {M : ProfileHMM R} {table : List (List (LogProb R))}
    {time k s : Nat} {w : LogProb R} (h : M.forwardSummand table time k s = some w) :
    w = tget table (time - 1) k + tget M.state_transitions k s := by
  simp only [forwardSummand, Option.bind_eq_bind, Option.bind_eq_some, Option.pure_def,
    Option.some_inj] at h
  obtain ⟨f, hf, t, ht, hw⟩ := h
  rw [← hw, tget_of_idx2_eq_some hf, tget_of_idx2_eq_some ht]

theorem forwardBase_eq_some {M : ProfileHMM R} {table : List (List (LogProb R))}
    {t s : Nat} {b : LogProb R} (h : M.forwardBase table t s = some b) :
    b = if t = 0 then tget1 M.initial_states_prob s
        else logSumExp ((List.range M.stateCount).map
          fun k => tget table (t - 1) k + tget M.state_transitions k s) := by
  unfold forwardBase at h
  by_cases ht : t = 0
  · rw [if_pos ht] at h ⊢
    exact (getD_of_getElem?_eq_some LogProb.ln_zero h).symm
  · rw [if_neg ht] at h ⊢
    have hsome : ∀ k, k < M.stateCount → (M.forwardSummand table t k s).isSome := by
      intro k hk
      by_contra hns
      rw [Option.not_isSome_iff_eq_none] at hns
      rw [optFoldRange_map_eq_none hk hns] at h
      exact Option.noConfusion h
    have hv : ∀ k, k < M.stateCount → M.forwardSummand table t k s
        = some (tget table (t - 1) k + tget M.state_transitions k s) := by
      intro k hk
      obtain ⟨w, hw⟩ := Option.isSome_iff_exists.mp (hsome k hk)
      rw [hw, forwardSummand_eq_some hw]
    rw [optFoldRange_map_some hv, Option.some_inj] at h
    rw [← h, foldRange_ln_add_exp, logSumExp_map_range]
    apply LogProb.ext
    simp

theorem forwardCell_eq_some {M : ProfileHMM R} {obs : List Nat}
    {table : List (List (LogProb R))} {t s : Nat} {c : LogProb R}
    (h : M.forwardCell obs table t s = some c) :
    c = (if t = 0 then tget1 M.initial_states_prob s
         else logSumExp ((List.range M.stateCount).map
            fun k => tget table (t - 1) k + tget M.state_transitions k s))
        + tget M.emission_matrix s (obs.getD t 0) := by
  simp only [forwardCell, Option.bind_eq_bind, Option.bind_eq_some, Option.pure_def,
    Option.some_inj] at h
  obtain ⟨base, hbase, o, ho, e, he, hc⟩ := h
  rw [← hc, getD_of_getElem?_eq_some 0 ho, tget_of_idx2_eq_some he,
    forwardBase_eq_some hbase]

theorem forwardTableN_spec {M : ProfileHMM R} {obs : List Nat} :
    ∀ {n : Nat} {ft : List (List (LogProb R))}, M.forwardTableN obs n = some ft →
      ft.length = n ∧
      (∀ t, t < n → ∃ row, ft[t]? = some row ∧ row.length = M.stateCount) ∧
      (∀ t s, t < n → s < M.stateCount →
        tget ft t s = (if t = 0 then tget1 M.initial_states_prob s
          else logSumExp ((List.range M.stateCount).map
            fun k => tget ft (t - 1) k + tget M.state_transitions k s))
          + tget M.emission_matrix s (obs.getD t 0)) := by
  intro n
  induction n with
  | zero =>
    intro ft h
    simp only [forwardTableN, optFoldRange, Option.some_inj] at h
    subst h
    refine ⟨rfl, ?_, ?_⟩ <;> intro t <;> omega
  | succ n ih =>
    intro ft h
    simp only [forwardTableN, optFoldRange, Option.bind_eq_bind, Option.bind_eq_some] at h
    obtain ⟨T, hT, hstep⟩ := h
    rw [Option.map_eq_some'] at hstep
    obtain ⟨row, hrow, hcat⟩ := hstep
    subst hcat
    obtain ⟨hlen, hrows, hvals⟩ := ih (by simpa [forwardTableN] using hT)
    have hrowlen : row.length = M.stateCount := optMapRange_some_length hrow
    refine ⟨by simp [hlen], ?_, ?_⟩
    · intro t htn
      rcases Nat.lt_or_ge t n with htn' | htn'
      · obtain ⟨r, hr, hrl⟩ := hrows t htn'
        exact ⟨r, by rw [List.getElem?_append, if_pos (hlen ▸ htn')]; exact hr, hrl⟩
      · have : t = n := by omega
        subst this
        exact ⟨row, by rw [← hlen]; exact T.getElem?_concat_length row, hrowlen⟩
    · intro t s htn hs
      rcases Nat.lt_or_ge t n with htn' | htn'
      · rw [tget_append_lt (hlen ▸ htn')]
        rw [hvals t s htn' hs]
        by_cases ht0 : t = 0
        · rw [if_pos ht0, if_pos ht0]
        · rw [if_neg ht0, if_neg ht0]
          have htm : t - 1 < n := by omega
          have : (fun k => tget (T ++ [row]) (t - 1) k + tget M.state_transitions k s)
              = fun k => tget T (t - 1) k + tget M.state_transitions k s := by
            funext k
            rw [tget_append_lt (hlen ▸ htm)]
          rw [this]
      · have : t = n := by omega
        subst this
        obtain ⟨x, hx, hget⟩ := optMapRange_some_getElem? hrow s (hrowlen ▸ hs)
        have htget : tget (T ++ [row]) t s = x := by
          unfold tget
          rw [← hlen, getD_append_len, getD_of_getElem?_eq_some LogProb.ln_zero hget]
        rw [htget, forwardCell_eq_some hx]
        by_cases ht0 : t = 0
        · rw [if_pos ht0, if_pos ht0]
        · rw [if_neg ht0, if_neg ht0]
          have htm : t - 1 < T.length := by omega
          have : (fun k => tget T (t - 1) k + tget M.state_transitions k s)
              = fun k => tget (T ++ [row]) (t - 1) k + tget M.state_transitions k s := by
            funext k
            rw [tget_append_lt htm]
          rw [this]

theorem forwardFinalSummand_eq_some {M : ProfileHMM R} {ft : List (List (LogProb R))}
    {state : Nat} {w : LogProb R} (h : M.forwardFinalSummand ft state = some w) :
    w = tget ft state (M.stateCount - 1) + tget M.state_transitions state M.stateCount := by
  simp only [forwardFinalSummand, Option.bind_eq_bind, Option.bind_eq_some, Option.pure_def,
    Option.some_inj] at h
  obtain ⟨f, hf, t, ht, hw⟩ := h
  rw [← hw, tget_of_idx2_eq_some hf, tget_of_idx2_eq_some ht]

theorem forward_algorithm_decompose {M : ProfileHMM R} {obs : List Nat}
    {ft : List (List (LogProb R))} {pr : LogProb R}
    (h : M.forward_algorithm obs = some (ft, pr)) :
    M.forwardTable obs = some ft ∧
    optFoldRange (fun acc state => (M.forwardFinalSummand ft state).map acc.ln_add_exp)
      LogProb.ln_zero M.stateCount = some pr := by
  simp only [forward_algorithm, Option.bind_eq_bind, Option.bind_eq_some, Option.pure_def,
    Option.some_inj] at h
  obtain ⟨ft', hft', p', hp', heq⟩ := h
  have h1 : ft' = ft := congrArg Prod.fst heq
  have h2 : p' = pr := congrArg Prod.snd heq
  subst h1; subst h2
  exact ⟨hft', hp'⟩

theorem forward_aggregation_value {M : ProfileHMM R} {obs : List Nat}
    {ft : List (List (LogProb R))} {pr : LogProb R}
    (h : M.forward_algorithm obs = some (ft, pr)) :
    pr = logSumExp ((List.range M.stateCount).map
      fun state => tget ft state (M.stateCount - 1)
        + tget M.state_transitions state M.stateCount) := by
  obtain ⟨-, hagg⟩ := forward_algorithm_decompose h
  have hsome : ∀ k, k < M.stateCount → (M.forwardFinalSummand ft k).isSome := by
    intro k hk
    by_contra hns
    rw [Option.not_isSome_iff_eq_none] at hns
    rw [optFoldRange_map_eq_none hk hns] at hagg
    exact Option.noConfusion hagg
  have hv : ∀ k, k < M.stateCount → M.forwardFinalSummand ft k
      = some (tget ft k (M.stateCount - 1) + tget M.state_transitions k M.stateCount) := by
    intro k hk
    obtain ⟨w, hw⟩ := Option.isSome_iff_exists.mp (hsome k hk)
    rw [hw, forwardFinalSummand_eq_some hw]
  rw [optFoldRange_map_some hv, Option.some_inj] at hagg
  rw [← hagg, foldRange_ln_add_exp, logSumExp_map_range]
  apply LogProb.ext
  simp

end ProfileHMM

/-! Success and failure conditions of the forward algorithm. -/

theorem rows_of_len {α : Type} {m : List (List α)} {L n : Nat} (hm : m.length = n)
    (hrows : ∀ row ∈ m, row.length = L) {i : Nat} (hi : i < n) :
    ∃ row, m[i]? = some row ∧ row.length = L := by
  have hi' : i < m.length := hm ▸ hi
  exact ⟨m[i], List.getElem?_eq_getElem hi', hrows _ (m.getElem_mem hi')⟩

theorem idx2_isSome_of_len {α : Type} {m : List (List α)} {L n : Nat} (hm : m.length = n)
    (hrows : ∀ row ∈ m, row.length = L) {i j : Nat} (hi : i < n) (hj : j < L) :
    (idx2 m i j).isSome := by
  obtain ⟨row, hr, hl⟩ := rows_of_len hm hrows hi
  exact idx2_isSome hr (hl ▸ hj)

namespace ProfileHMM

variable {R : Type} [ProbCarrier R]

theorem forwardSummand_isSome {M : ProfileHMM R} {table : List (List (LogProb R))}
    {time k s : Nat} (h1 : (idx2 table (time - 1) k).isSome)
    (h2 : (idx2 M.state_transitions k s).isSome) :
    (M.forwardSummand table time k s).isSome := by
  obtain ⟨f, hf⟩ := Option.isSome_iff_exists.mp h1
  obtain ⟨t, ht⟩ := Option.isSome_iff_exists.mp h2
  simp [forwardSummand, hf, ht]

theorem forwardTableN_isSome {M : ProfileHMM R} {obs : List Nat} (hwf : M.WF)
    (hobs : M.InRange obs) :
    ∀ {n : Nat}, n ≤ obs.length → (M.forwardTableN obs n).isSome := by
  obtain ⟨htl, htr, hel, her⟩ := hwf
  intro n
  induction n with
  | zero => intro _; simp [forwardTableN, optFoldRange]
  | succ n ih =>
    intro hn
    obtain ⟨T, hT⟩ := Option.isSome_iff_exists.mp (ih (by omega))
    obtain ⟨hTlen, hTrows, -⟩ := forwardTableN_spec hT
    have hcell : ∀ s, s < M.stateCount → (M.forwardCell obs T n s).isSome := by
      intro s hs
      have hbase : (M.forwardBase T n s).isSome := by
        unfold forwardBase
        by_cases hn0 : n = 0
        · rw [if_pos hn0]
          have : s < M.initial_states_prob.length := hs
          rw [List.getElem?_eq_getElem this]
          rfl
        · rw [if_neg hn0]
          apply optFoldRange_map_isSome
          intro k hk
          apply forwardSummand_isSome
          · obtain ⟨row, hr, hl⟩ := hTrows (n - 1) (by omega)
            exact idx2_isSome hr (by omega)
          · exact idx2_isSome_of_len htl htr hk (by omega)
      obtain ⟨b, hb⟩ := Option.isSome_iff_exists.mp hbase
      have hno : obs[n]? = some obs[n] := List.getElem?_eq_getElem hn
      have hoin : obs[n] < M.observation_count := hobs _ (obs.getElem_mem hn)
      obtain ⟨e, he⟩ := Option.isSome_iff_exists.mp
        (idx2_isSome_of_len hel her hs hoin)
      simp [forwardCell, hb, hno, he]
    obtain ⟨row, hrow⟩ := Option.isSome_iff_exists.mp
      (optMapRange_isSome fun s hs => hcell s hs)
    have : M.forwardTableN obs (n + 1)
        = (M.forwardTableN obs n).bind fun table =>
            (optMapRange (fun state => M.forwardCell obs table n state) M.stateCount).map
              fun row => table ++ [row] := by
      simp [forwardTableN, optFoldRange, Option.bind_eq_bind]
    rw [this, hT, Option.some_bind, hrow]
    rfl

theorem forward_algorithm_isSome {M : ProfileHMM R} {obs : List Nat} (hwf : M.WF)
    (hobs : M.InRange obs) (hlen : M.stateCount ≤ obs.length) :
    (M.forward_algorithm obs).isSome := by
  obtain ⟨T, hT⟩ := Option.isSome_iff_exists.mp
    (forwardTableN_isSome hwf hobs (le_refl obs.length))
  obtain ⟨hTlen, hTrows, -⟩ := forwardTableN_spec hT
  have hagg : ∀ k, k < M.stateCount → (M.forwardFinalSummand T k).isSome := by
    intro k hk
    have h1 : (idx2 T k (M.stateCount - 1)).isSome := by
      obtain ⟨row, hr, hl⟩ := hTrows k (by omega)
      exact idx2_isSome hr (by omega)
    have h2 : (idx2 M.state_transitions k M.stateCount).isSome :=
      idx2_isSome_of_len hwf.1 hwf.2.1 hk (by omega)
    obtain ⟨f, hf⟩ := Option.isSome_iff_exists.mp h1
    obtain ⟨t, ht⟩ := Option.isSome_iff_exists.mp h2
    simp [forwardFinalSummand, hf, ht]
  have hfold : (optFoldRange
      (fun acc state => (M.forwardFinalSummand T state).map acc.ln_add_exp)
      LogProb.ln_zero M.stateCount).isSome := optFoldRange_map_isSome hagg
  obtain ⟨pr, hpr⟩ := Option.isSome_iff_exists.mp hfold
  have hT' : M.forwardTable obs = some T := hT
  simp [forward_algorithm, hT', hpr]

theorem forward_algorithm_none_of_short {M : ProfileHMM R} {obs : List Nat}
    (hlen : obs.length < M.stateCount) : M.forward_algorithm obs = none := by
  cases hT : M.forwardTable obs with
  | none => simp [forward_algorithm, hT]
  | some T =>
    obtain ⟨hTlen, -, -⟩ := forwardTableN_spec (hT : M.forwardTableN obs obs.length = some T)
    have hnone : M.forwardFinalSummand T obs.length = none := by
      have : T[obs.length]? = none := by
        rw [List.getElem?_eq_none]
        omega
      simp [forwardFinalSummand, idx2, this]
    have hfold : optFoldRange
        (fun acc state => (M.forwardFinalSummand T state).map acc.ln_add_exp)
        LogProb.ln_zero M.stateCount = none := optFoldRange_map_eq_none hlen hnone
    simp [forward_algorithm, hT, hfold]

theorem viterbiRow0_none_of_empty {M : ProfileHMM R} (hsc : 0 < M.stateCount) :
    M.viterbiRow0 ([] : List Nat) = none := by
  apply optMapRange_eq_none hsc
  have h0 : M.initial_states_prob[0]? = some M.initial_states_prob[0] :=
    List.getElem?_eq_getElem hsc
  simp [h0]

theorem viterbi_none_of_empty {M : ProfileHMM R} (hsc : 0 < M.stateCount) :
    M.viterbi ([] : List Nat) = none := by
  have htab : M.viterbiTables ([] : List Nat) = none := by
    simp [viterbiTables, viterbiTablesN, viterbiRow0_none_of_empty hsc]
  simp [viterbi, htab]

end ProfileHMM

/-! Characterisation of the backward table. -/

theorem idx2_map_take {α : Type} {m : List (List α)} {n i j : Nat} (hj : j < n) :
    idx2 (m.map fun row => row.take n) i j = idx2 m i j := by
  unfold idx2
  rw [List.getElem?_map]
  cases m[i]? with
  | none => rfl
  | some row => simp [List.getElem?_take, hj]

namespace ProfileHMM

variable {R : Type} [ProbCarrier R]

@[simp] theorem truncTrans_state_transitions (M : ProfileHMM R) :
    M.truncTrans.state_transitions
      = M.state_transitions.map fun row => row.take M.stateCount := rfl

@[simp] theorem truncTrans_initial (M : ProfileHMM R) :
    M.truncTrans.initial_states_prob = M.initial_states_prob := rfl

@[simp] theorem truncTrans_emission (M : ProfileHMM R) :
    M.truncTrans.emission_matrix = M.emission_matrix := rfl

@[simp] theorem truncTrans_stateCount (M : ProfileHMM R) :
    M.truncTrans.stateCount = M.stateCount := rfl

theorem backwardSummand_eq_some {M : ProfileHMM R} {obs : List Nat}
    {suffix : List (List (LogProb R))} {time s s2 : Nat} {w : LogProb R}
    (h : M.backwardSummand obs suffix time s s2 = some w) :
    w = tget suffix 0 s2 + tget M.state_transitions s s2
        + tget M.emission_matrix s2 (obs.getD (time + 1) 0) := by
  simp only [backwardSummand, Option.bind_eq_bind, Option.bind_eq_some, Option.pure_def,
    Option.some_inj] at h
  obtain ⟨b, hb, t, ht, o, ho, e, he, hw⟩ := h
  rw [← hw, getD_of_getElem?_eq_some 0 ho, tget_of_idx2_eq_some hb,
    tget_of_idx2_eq_some ht, tget_of_idx2_eq_some he]

theorem backwardCell_eq_some {M : ProfileHMM R} {obs : List Nat}
    {suffix : List (List (LogProb R))} {time s : Nat} {c : LogProb R}
    (h : M.backwardCell obs suffix time s = some c) :
    c = if time + 1 = obs.length then LogProb.ln_one
        else logSumExp ((List.range M.stateCount).map
          fun s2 => tget suffix 0 s2 + tget M.state_transitions s s2
            + tget M.emission_matrix s2 (obs.getD (time + 1) 0)) := by
  unfold backwardCell at h
  by_cases ht : time + 1 = obs.length
  · rw [if_pos ht] at h ⊢
    simp only [Option.pure_def, Option.some_inj] at h
    exact h.symm
  · rw [if_neg ht] at h ⊢
    have hsome : ∀ k, k < M.stateCount → (M.backwardSummand obs suffix time s k).isSome := by
      intro k hk
      by_contra hns
      rw [Option.not_isSome_iff_eq_none] at hns
      rw [optFoldRange_map_eq_none hk hns] at h
      exact Option.noConfusion h
    have hv : ∀ k, k < M.stateCount → M.backwardSummand obs suffix time s k
        = some (tget suffix 0 k + tget M.state_transitions s k
            + tget M.emission_matrix k (obs.getD (time + 1) 0)) := by
      intro k hk
      obtain ⟨w, hw⟩ := Option.isSome_iff_exists.mp (hsome k hk)
      rw [hw, backwardSummand_eq_some hw]
    rw [optFoldRange_map_some hv, Option.some_inj] at h
    rw [← h, foldRange_ln_add_exp, logSumExp_map_range]
    apply LogProb.ext
    simp

theorem backwardSuffix_spec {M : ProfileHMM R} {obs : List Nat} :
    ∀ {k : Nat} {bt : List (List (LogProb R))}, k ≤ obs.length →
      backwardSuffix M obs k = some bt →
      bt.length = k ∧
      (∀ j, j < k → ∃ row, bt[j]? = some row ∧ row.length = M.stateCount) ∧
      (∀ j s, j < k → s < M.stateCount →
        tget bt j s = if obs.length - k + j + 1 = obs.length then LogProb.ln_one
          else logSumExp ((List.range M.stateCount).map
            fun s2 => tget bt (j + 1) s2 + tget M.state_transitions s s2
              + tget M.emission_matrix s2 (obs.getD (obs.length - k + j + 1) 0))) := by
  intro k
  induction k with
  | zero =>
    intro bt _ h
    simp only [backwardSuffix, Option.some_inj] at h
    subst h
    refine ⟨rfl, ?_, ?_⟩ <;> intro t <;> omega
  | succ k ih =>
    intro bt hk h
    simp only [backwardSuffix, Option.bind_eq_bind, Option.bind_eq_some, Option.pure_def,
      Option.some_inj] at h
    obtain ⟨rest, hrest, row, hrow, hcons⟩ := h
    obtain ⟨hlen, hrows, hvals⟩ := ih (by omega) hrest
    subst hcons
    have hrowlen : row.length = M.stateCount := optMapRange_some_length hrow
    refine ⟨by simp [hlen], ?_, ?_⟩
    · intro j hj
      cases j with
      | zero => exact ⟨row, by simp, hrowlen⟩
      | succ j =>
        obtain ⟨r, hr, hl⟩ := hrows j (by omega)
        exact ⟨r, by rw [List.getElem?_cons_succ]; exact hr, hl⟩
    · intro j s hj hs
      cases j with
      | zero =>
        obtain ⟨x, hx, hget⟩ := optMapRange_some_getElem? hrow s (by
          have : M.initial_states_prob.length = M.stateCount := rfl
          omega)
        have htget : tget (row :: rest) 0 s = x := by
          unfold tget
          rw [List.getD_cons_zero]
          exact getD_of_getElem?_eq_some LogProb.ln_zero hget
        rw [htget, backwardCell_eq_some hx]
        have hidx : obs.length - (k + 1) + 1 = obs.length - (k + 1) + 0 + 1 := by omega
        by_cases hc : obs.length - (k + 1) + 1 = obs.length
        · rw [if_pos hc, if_pos (by omega)]
        · rw [if_neg hc, if_neg (by omega)]
          have harg : obs.length - (k + 1) + 0 + 1 = obs.length - (k + 1) + 1 := by omega
          rw [harg]
          have hsfx : (fun s2 => tget rest 0 s2 + tget M.state_transitions s s2
              + tget M.emission_matrix s2 (obs.getD (obs.length - (k + 1) + 1) 0))
              = fun s2 => tget (row :: rest) (0 + 1) s2 + tget M.state_transitions s s2
                + tget M.emission_matrix s2 (obs.getD (obs.length - (k + 1) + 1) 0) := by
            funext s2
            unfold tget
            rw [List.getD_cons_succ]
          rw [hsfx]
      | succ j =>
        have hbt : tget (row :: rest) (j + 1) s = tget rest j s := by
          unfold tget
          rw [List.getD_cons_succ]
        rw [hbt, hvals j s (by omega) hs]
        have harg : obs.length - k + j + 1 = obs.length - (k + 1) + (j + 1) + 1 := by omega
        rw [harg]
        by_cases hc : obs.length - (k + 1) + (j + 1) + 1 = obs.length
        · rw [if_pos hc, if_pos hc]
        · rw [if_neg hc, if_neg hc]
          have hsfx : (fun s2 => tget rest (j + 1) s2 + tget M.state_transitions s s2
              + tget M.emission_matrix s2
                  (obs.getD (obs.length - (k + 1) + (j + 1) + 1) 0))
              = fun s2 => tget (row :: rest) (j + 1 + 1) s2 + tget M.state_transitions s s2
                + tget M.emission_matrix s2
                    (obs.getD (obs.length - (k + 1) + (j + 1) + 1) 0) := by
            funext s2
            unfold tget
            rw [List.getD_cons_succ]
          rw [hsfx]

theorem backward_spec_core {M : ProfileHMM R} {obs : List Nat}
    {bt : List (List (LogProb R))} (h : M.backward obs = some bt) :
    bt.length = obs.length ∧
    (∀ j, j < obs.length → ∃ row, bt[j]? = some row ∧ row.length = M.stateCount) ∧
    (∀ s, s < M.stateCount → 0 < obs.length →
      tget bt (obs.length - 1) s = LogProb.ln_one) ∧
    (∀ t s, t + 1 < obs.length → s < M.stateCount →
      tget bt t s = logSumExp ((List.range M.stateCount).map
        fun s2 => tget bt (t + 1) s2 + tget M.state_transitions s s2
          + tget M.emission_matrix s2 (obs.getD (t + 1) 0))) := by
  obtain ⟨hlen, hrows, hvals⟩ := backwardSuffix_spec (le_refl obs.length) h
  refine ⟨hlen, hrows, ?_, ?_⟩
  · intro s hs hpos
    rw [hvals (obs.length - 1) s (by omega) hs, if_pos (by omega)]
  · intro t s ht hs
    rw [hvals t s (by omega) hs, if_neg (by omega)]
    have harg : obs.length - obs.length + t + 1 = t + 1 := by omega
    rw [harg]

end ProfileHMM

/-! The end-transition column `state_transitions[·][state_count]` is not read
by `backward` or `viterbi`: both algorithms are invariant under removing it. -/

namespace ProfileHMM

variable {R : Type} [ProbCarrier R]

theorem backwardSummand_trunc (M : ProfileHMM R) (obs : List Nat)
    (suffix : List (List (LogProb R))) (time s : Nat) {s2 : Nat}
    (hs2 : s2 < M.stateCount) :
    M.truncTrans.backwardSummand obs suffix time s s2
      = M.backwardSummand obs suffix time s s2 := by
  simp only [backwardSummand, truncTrans_state_transitions, truncTrans_emission,
    idx2_map_take hs2]

theorem backwardCell_trunc (M : ProfileHMM R) (obs : List Nat)
    (suffix : List (List (LogProb R))) (time s : Nat) :
    M.truncTrans.backwardCell obs suffix time s = M.backwardCell obs suffix time s := by
  unfold backwardCell
  by_cases ht : time + 1 = obs.length
  · rw [if_pos ht, if_pos ht]
  · rw [if_neg ht, if_neg ht, truncTrans_stateCount]
    apply optFoldRange_congr
    intro a k hk
    rw [backwardSummand_trunc M obs suffix time s hk]

theorem backwardSuffix_trunc (M : ProfileHMM R) (obs : List Nat) :
    ∀ k : Nat, backwardSuffix M.truncTrans obs k = backwardSuffix M obs k := by
  intro k
  induction k with
  | zero => rfl
  | succ k ih =>
    simp only [backwardSuffix, ih, truncTrans_initial]
    cases backwardSuffix M obs k with
    | none => rfl
    | some rest =>
      simp only [Option.bind_eq_bind, Option.some_bind]
      rw [optMapRange_congr fun s hs => backwardCell_trunc M obs rest (obs.length - (k + 1)) s]

theorem backward_trunc (M : ProfileHMM R) (obs : List Nat) :
    M.truncTrans.backward obs = M.backward obs :=
  backwardSuffix_trunc M obs obs.length

theorem viterbiRow0_trunc (M : ProfileHMM R) (obs : List Nat) :
    M.truncTrans.viterbiRow0 obs = M.viterbiRow0 obs := by
  simp only [viterbiRow0, truncTrans_stateCount, truncTrans_initial, truncTrans_emission]

theorem viterbiSummand_trunc (M : ProfileHMM R) (pf : List (List (LogProb R)))
    (i k : Nat) {j : Nat} (hj : j < M.stateCount) :
    M.truncTrans.viterbiSummand pf i k j = M.viterbiSummand pf i k j := by
  simp only [viterbiSummand, truncTrans_state_transitions, idx2_map_take hj]

theorem viterbiCellMax_trunc (M : ProfileHMM R) (pf : List (List (LogProb R)))
    (i : Nat) {j : Nat} (hj : j < M.stateCount) :
    M.truncTrans.viterbiCellMax pf i j = M.viterbiCellMax pf i j := by
  unfold viterbiCellMax
  rw [truncTrans_stateCount]
  apply optFoldRange_congr
  intro a k hk
  rw [viterbiSummand_trunc M pf i k hj]

theorem viterbiCell_trunc (M : ProfileHMM R) (obs : List Nat)
    (pf : List (List (LogProb R))) (i : Nat) {j : Nat} (hj : j < M.stateCount) :
    M.truncTrans.viterbiCell obs pf i j = M.viterbiCell obs pf i j := by
  simp only [viterbiCell, truncTrans_emission, viterbiCellMax_trunc M pf i hj]

theorem viterbiTablesN_trunc (M : ProfileHMM R) (obs : List Nat) :
    ∀ n : Nat, M.truncTrans.viterbiTablesN obs n = M.viterbiTablesN obs n := by
  intro n
  unfold viterbiTablesN
  rw [viterbiRow0_trunc]
  cases M.viterbiRow0 obs with
  | none => rfl
  | some row0 =>
    simp only [Option.bind_eq_bind, Option.some_bind]
    induction n with
    | zero => rfl
    | succ n ih =>
      simp only [optFoldRange, ih]
      cases optFoldRange
          (fun tabs t =>
            (optMapRange (fun j => M.viterbiCell obs tabs.1 (t + 1) j) M.stateCount).map
              fun cells => (tabs.1 ++ [cells.map Prod.snd], tabs.2 ++ [cells.map Prod.fst]))
          ([row0], [[]]) n with
      | none => rfl
      | some tabs =>
        simp only [Option.bind_eq_bind, Option.some_bind, truncTrans_stateCount]
        rw [optMapRange_congr fun j hj => viterbiCell_trunc M obs tabs.1 (n + 1) hj]

theorem viterbi_trunc (M : ProfileHMM R) (obs : List Nat) :
    M.truncTrans.viterbi obs = M.viterbi obs := by
  unfold viterbi
  rw [show M.truncTrans.viterbiTables obs = M.viterbiTables obs from
    viterbiTablesN_trunc M obs (obs.length - 1), truncTrans_stateCount]

end ProfileHMM

/-! Characterisation of the Viterbi DP tables, the termination scan and the
back-pointer traversal. -/

theorem tgetN_append_lt {m : List (List Nat)} {row : List Nat} {i j : Nat}
    (h : i < m.length) : tgetN (m ++ [row]) i j = tgetN m i j := by
  unfold tgetN
  rw [getD_append_lt [] h]

namespace ProfileHMM

variable {R : Type} [ProbCarrier R]

theorem viterbiRow0_eq_some {M : ProfileHMM R} {obs : List Nat}
    {row0 : List (LogProb R)} (h : M.viterbiRow0 obs = some row0) :
    row0.length = M.stateCount ∧
    ∀ s, s < M.stateCount → row0.getD s LogProb.ln_zero
      = tget1 M.initial_states_prob s + tget M.emission_matrix s (obs.getD 0 0) := by
  refine ⟨optMapRange_some_length h, ?_⟩
  intro s hs
  obtain ⟨x, hx, hget⟩ := optMapRange_some_getElem? h s hs
  rw [getD_of_getElem?_eq_some LogProb.ln_zero hget]
  simp only [Option.bind_eq_bind, Option.bind_eq_some, Option.pure_def,
    Option.some_inj] at hx
  obtain ⟨init, hinit, o, ho, e, he, hxeq⟩ := hx
  rw [← hxeq, getD_of_getElem?_eq_some 0 ho, tget_of_idx2_eq_some he]
  have : tget1 M.initial_states_prob s = init :=
    getD_of_getElem?_eq_some LogProb.ln_zero hinit
  rw [this]

theorem viterbiSummand_eq_some {M : ProfileHMM R} {pf : List (List (LogProb R))}
    {i k j : Nat} {w : LogProb R} (h : M.viterbiSummand pf i k j = some w) :
    w = tget pf (i - 1) k + tget M.state_transitions k j := by
  simp only [viterbiSummand, Option.bind_eq_bind, Option.bind_eq_some, Option.pure_def,
    Option.some_inj] at h
  obtain ⟨f, hf, t, ht, hw⟩ := h
  rw [← hw, tget_of_idx2_eq_some hf, tget_of_idx2_eq_some ht]

theorem viterbiCellMax_eq_some {M : ProfileHMM R} {pf : List (List (LogProb R))}
    {i j : Nat} {best : Nat × LogProb R} (h : M.viterbiCellMax pf i j = some best) :
    best = amax (fun k => tget pf (i - 1) k + tget M.state_transitions k j)
      M.stateCount := by
  unfold viterbiCellMax at h
  have hsome : ∀ k, k < M.stateCount → (M.viterbiSummand pf i k j).isSome := by
    intro k hk
    by_contra hns
    rw [Option.not_isSome_iff_eq_none] at hns
    rw [optFoldRange_map_eq_none hk hns] at h
    exact Option.noConfusion h
  have hv : ∀ k, k < M.stateCount → M.viterbiSummand pf i k j
      = some (tget pf (i - 1) k + tget M.state_transitions k j) := by
    intro k hk
    obtain ⟨w, hw⟩ := Option.isSome_iff_exists.mp (hsome k hk)
    rw [hw, viterbiSummand_eq_some hw]
  rw [optFoldRange_map_some hv, Option.some_inj] at h
  exact h.symm

theorem viterbiCell_eq_some {M : ProfileHMM R} {obs : List Nat}
    {pf : List (List (LogProb R))} {i j : Nat} {cell : Nat × LogProb R}
    (h : M.viterbiCell obs pf i j = some cell) :
    cell = ((amax (fun k => tget pf (i - 1) k + tget M.state_transitions k j)
        M.stateCount).1,
      (amax (fun k => tget pf (i - 1) k + tget M.state_transitions k j)
        M.stateCount).2 + tget M.emission_matrix j (obs.getD i 0)) := by
  simp only [viterbiCell, Option.bind_eq_bind, Option.bind_eq_some, Option.pure_def,
    Option.some_inj] at h
  obtain ⟨best, hbest, o, ho, e, he, hc⟩ := h
  rw [← hc, getD_of_getElem?_eq_some 0 ho, tget_of_idx2_eq_some he,
    viterbiCellMax_eq_some hbest]

theorem viterbiFinal_eq_some {pf : List (List (LogProb R))} {len sc : Nat}
    {fin : Nat × LogProb R} (h : viterbiFinal pf len sc = some fin) :
    fin = gmax (fun i => tget pf (len - 1) i) sc := by
  unfold viterbiFinal at h
  have hsome : ∀ k, k < sc → (idx2 pf (len - 1) k).isSome := by
    intro k hk
    by_contra hns
    rw [Option.not_isSome_iff_eq_none] at hns
    rw [optFoldRange_map_eq_none hk hns] at h
    exact Option.noConfusion h
  have hv : ∀ k, k < sc → idx2 pf (len - 1) k = some (tget pf (len - 1) k) := by
    intro k hk
    obtain ⟨w, hw⟩ := Option.isSome_iff_exists.mp (hsome k hk)
    rw [hw, tget_of_idx2_eq_some hw]
  rw [optFoldRange_map_some hv, Option.some_inj] at h
  exact h.symm

theorem btPath_spec {ps : List (List Nat)} :
    ∀ {last s0 : Nat} {path : List Nat}, btPath ps last s0 = some path →
      path.length = last + 1 ∧ path.getD last 0 = s0 ∧
      (∀ i, i < last → path.getD i 0 = tgetN ps (i + 1) (path.getD (i + 1) 0)) := by
  intro last
  induction last with
  | zero =>
    intro s0 path h
    simp only [btPath, Option.some_inj] at h
    subst h
    exact ⟨rfl, rfl, fun i hi => by omega⟩
  | succ last ih =>
    intro s0 path h
    simp only [btPath, Option.bind_eq_bind, Option.bind_eq_some, Option.pure_def,
      Option.some_inj] at h
    obtain ⟨k, hk, rest, hrest, hcat⟩ := h
    obtain ⟨hlen, hlast, hbp⟩ := ih hrest
    subst hcat
    have hrl : rest.length = last + 1 := hlen
    refine ⟨by simp [hrl], ?_, ?_⟩
    · rw [← hrl, getD_append_len]
    · intro i hi
      rcases Nat.lt_or_ge i last with hil | hil
      · rw [getD_append_lt 0 (by omega), getD_append_lt 0 (by omega)]
        exact hbp i hil
      · have : i = last := by omega
        subst this
        rw [getD_append_lt 0 (by omega)]
        have h1 : (rest ++ [s0]).getD (i + 1) 0 = s0 := by
          rw [← hrl, getD_append_len]
        rw [h1, hlast]
        exact tgetN_of_idx2_eq_some hk |>.symm

end ProfileHMM

namespace ProfileHMM

variable {R : Type} [ProbCarrier R]

theorem viterbiTablesN_spec {M : ProfileHMM R} {obs : List Nat} :
    ∀ {n : Nat} {pf : List (List (LogProb R))} {ps : List (List Nat)},
      M.viterbiTablesN obs n = some (pf, ps) →
      pf.length = n + 1 ∧ ps.length = n + 1 ∧
      (∀ i, i ≤ n → ∃ row, pf[i]? = some row ∧ row.length = M.stateCount) ∧
      ps[0]? = some [] ∧
      (∀ i, 1 ≤ i → i ≤ n → ∃ row, ps[i]? = some row ∧ row.length = M.stateCount) ∧
      (∀ s, s < M.stateCount → tget pf 0 s
        = tget1 M.initial_states_prob s + tget M.emission_matrix s (obs.getD 0 0)) ∧
      (∀ i j, 1 ≤ i → i ≤ n → j < M.stateCount →
        tgetN ps i j = (amax (fun k => tget pf (i - 1) k + tget M.state_transitions k j)
            M.stateCount).1 ∧
        tget pf i j = (amax (fun k => tget pf (i - 1) k + tget M.state_transitions k j)
            M.stateCount).2 + tget M.emission_matrix j (obs.getD i 0)) := by
  intro n
  induction n with
  | zero =>
    intro pf ps h
    simp only [viterbiTablesN, optFoldRange, Option.bind_eq_bind, Option.bind_eq_some,
      Option.some_inj] at h
    obtain ⟨row0, hrow0, htabs⟩ := h
    have hpf : pf = [row0] := (congrArg Prod.fst htabs).symm
    have hps : ps = [[]] := (congrArg Prod.snd htabs).symm
    subst hpf; subst hps
    obtain ⟨hr0len, hr0val⟩ := viterbiRow0_eq_some hrow0
    refine ⟨rfl, rfl, ?_, by simp, ?_, ?_, ?_⟩
    · intro i hi
      have : i = 0 := by omega
      subst this
      exact ⟨row0, by simp, hr0len⟩
    · intro i hi1 hi2; omega
    · intro s hs
      have : tget [row0] 0 s = row0.getD s LogProb.ln_zero := by
        unfold tget
        rw [List.getD_cons_zero]
      rw [this, hr0val s hs]
    · intro i j hi1 hi2; omega
  | succ n ih =>
    intro pf ps h
    simp only [viterbiTablesN, Option.bind_eq_bind, Option.bind_eq_some] at h
    obtain ⟨row0, hrow0, hfold⟩ := h
    simp only [optFoldRange, Option.bind_eq_bind, Option.bind_eq_some] at hfold
    obtain ⟨tabs', hfold', hstep⟩ := hfold
    obtain ⟨pf', ps'⟩ := tabs'
    have hprev : M.viterbiTablesN obs n = some (pf', ps') := by
      simp only [viterbiTablesN, Option.bind_eq_bind]
      rw [hrow0, Option.some_bind]
      exact hfold'
    obtain ⟨hpflen, hpslen, hpfrows, hps0, hpsrows, hrow0val, hrec⟩ := ih hprev
    rw [Option.map_eq_some'] at hstep
    obtain ⟨cells, hcells, htabs⟩ := hstep
    have hpf : pf = pf' ++ [cells.map Prod.snd] := (congrArg Prod.fst htabs).symm
    have hps : ps = ps' ++ [cells.map Prod.fst] := (congrArg Prod.snd htabs).symm
    subst hpf; subst hps
    have hclen : cells.length = M.stateCount := optMapRange_some_length hcells
    have hcell : ∀ j, j < M.stateCount → ∃ c, M.viterbiCell obs pf' (n + 1) j = some c
        ∧ cells[j]? = some c := fun j hj => by
      obtain ⟨c, hc, hg⟩ := optMapRange_some_getElem? hcells j hj
      exact ⟨c, hc, hg⟩
    refine ⟨by simp [hpflen], by simp [hpslen], ?_, ?_, ?_, ?_, ?_⟩
    · intro i hi
      rcases Nat.lt_or_ge i (n + 1) with hi' | hi'
      · obtain ⟨row, hr, hl⟩ := hpfrows i (by omega)
        exact ⟨row, by rw [List.getElem?_append, if_pos (hpflen ▸ hi')]; exact hr, hl⟩
      · have : i = n + 1 := by omega
        subst this
        refine ⟨cells.map Prod.snd, ?_, by simp [hclen]⟩
        rw [← hpflen]
        exact pf'.getElem?_concat_length _
    · rw [List.getElem?_append, if_pos (by omega)]
      exact hps0
    · intro i hi1 hi2
      rcases Nat.lt_or_ge i (n + 1) with hi' | hi'
      · obtain ⟨row, hr, hl⟩ := hpsrows i hi1 (by omega)
        exact ⟨row, by rw [List.getElem?_append, if_pos (hpslen ▸ hi')]; exact hr, hl⟩
      · have : i = n + 1 := by omega
        subst this
        refine ⟨cells.map Prod.fst, ?_, by simp [hclen]⟩
        rw [← hpslen]
        exact ps'.getElem?_concat_length _
    · intro s hs
      rw [tget_append_lt (by omega)]
      exact hrow0val s hs
    · intro i j hi1 hi2 hj
      rcases Nat.lt_or_ge i (n + 1) with hi' | hi'
      · obtain ⟨h1, h2⟩ := hrec i j hi1 (by omega) hj
        have hfun : (fun k => tget (pf' ++ [cells.map Prod.snd]) (i - 1) k
            + tget M.state_transitions k j)
            = fun k => tget pf' (i - 1) k + tget M.state_transitions k j := by
          funext k
          rw [tget_append_lt (by omega)]
        rw [tgetN_append_lt (by omega), tget_append_lt (by omega), hfun]
        exact ⟨h1, h2⟩
      · have : i = n + 1 := by omega
        subst this
        obtain ⟨c, hc, hg⟩ := hcell j hj
        have hcval := viterbiCell_eq_some hc
        have hfun : (fun k => tget (pf' ++ [cells.map Prod.snd]) (n + 1 - 1) k
            + tget M.state_transitions k j)
            = fun k => tget pf' (n + 1 - 1) k + tget M.state_transitions k j := by
          funext k
          rw [tget_append_lt (by omega)]
        have hN : tgetN (ps' ++ [cells.map Prod.fst]) (n + 1) j = c.1 := by
          unfold tgetN
          rw [← hpslen, getD_append_len]
          have : (cells.map Prod.fst)[j]? = some c.1 := by
            rw [List.getElem?_map, hg]
            rfl
          exact getD_of_getElem?_eq_some 0 this
        have hV : tget (pf' ++ [cells.map Prod.snd]) (n + 1) j = c.2 := by
          unfold tget
          rw [← hpflen, getD_append_len]
          have : (cells.map Prod.snd)[j]? = some c.2 := by
            rw [List.getElem?_map, hg]
            rfl
          exact getD_of_getElem?_eq_some LogProb.ln_zero this
        rw [hN, hV, hfun, hcval]
        exact ⟨rfl, rfl⟩

end ProfileHMM

/-! The probability of the decoded path. -/

theorem usub_eq_some {a b c : Nat} : usub a b = some c ↔ b ≤ a ∧ c = a - b := by
  unfold usub
  split_ifs with h
  · simp only [Option.some_inj]
    constructor
    · intro he; exact ⟨h, he.symm⟩
    · intro hc; exact hc.2.symm
  · simp only [false_iff, not_and]
    intro hc
    exact absurd hc h

theorem map_range_congr {α : Type} {f g : Nat → α} {n : Nat}
    (h : ∀ r, r < n → f r = g r) : (List.range n).map f = (List.range n).map g :=
  List.map_congr_left fun a ha => h a (List.mem_range.mp ha)

theorem logSum_range_succ {R : Type} [ProbCarrier R] (f : Nat → LogProb R) (n : Nat) :
    logSum ((List.range (n + 1)).map f) = logSum ((List.range n).map f) + f n := by
  apply LogProb.ext
  simp [logSum, List.range_succ]

namespace ProfileHMM

variable {R : Type} [ProbCarrier R]

theorem viterbi_decompose {M : ProfileHMM R} {obs path : List Nat} {pr : LogProb R}
    (h : M.viterbi obs = some (path, pr)) :
    ∃ pf ps fin last,
      M.viterbiTables obs = some (pf, ps) ∧
      viterbiFinal pf obs.length M.stateCount = some fin ∧
      usub obs.length 1 = some last ∧
      btPath ps last fin.1 = some path ∧ pr = fin.2 := by
  simp only [viterbi, Option.bind_eq_bind, Option.bind_eq_some, Option.pure_def,
    Option.some_inj] at h
  obtain ⟨tabs, htabs, fin, hfin, last, hlast, p, hp, heq⟩ := h
  obtain ⟨pf, ps⟩ := tabs
  have h1 : p = path := congrArg Prod.fst heq
  have h2 : fin.2 = pr := congrArg Prod.snd heq
  subst h1
  exact ⟨pf, ps, fin, last, htabs, hfin, hlast, hp, h2.symm⟩

theorem btPath_score {M : ProfileHMM R} {obs : List Nat} {pf : List (List (LogProb R))}
    {ps : List (List Nat)} (htab : M.viterbiTables obs = some (pf, ps)) :
    ∀ {i : Nat}, i ≤ obs.length - 1 → ∀ {s : Nat}, s < M.stateCount →
      ∀ {q : List Nat}, btPath ps i s = some q →
      tget pf i s = tget1 M.initial_states_prob (q.getD 0 0)
        + logSum ((List.range i).map
            fun r => tget M.state_transitions (q.getD r 0) (q.getD (r + 1) 0))
        + logSum ((List.range (i + 1)).map
            fun r => tget M.emission_matrix (q.getD r 0) (obs.getD r 0)) := by
  obtain ⟨hpflen, hpslen, hpfrows, hps0, hpsrows, hrow0, hrec⟩ := viterbiTablesN_spec htab
  intro i
  induction i with
  | zero =>
    intro _ s hs q hq
    simp only [btPath, Option.some_inj] at hq
    subst hq
    rw [hrow0 s hs]
    apply LogProb.ext
    simp [logSum, tget1, List.range_succ]
  | succ i ih =>
    intro hi s hs q hq
    simp only [btPath, Option.bind_eq_bind, Option.bind_eq_some, Option.pure_def,
      Option.some_inj] at hq
    obtain ⟨k, hk, rest, hrest, hcat⟩ := hq
    have hkval : tgetN ps (i + 1) s = k := tgetN_of_idx2_eq_some hk
    obtain ⟨hN, hV⟩ := hrec (i + 1) s (by omega) (by omega) hs
    simp only [Nat.add_sub_cancel] at hN hV
    have hsc : 0 < M.stateCount := by omega
    have hatt := amax_attains
      (v := fun k2 => tget pf i k2 + tget M.state_transitions k2 s) hsc
    have hk_lt : k < M.stateCount := by
      rw [← hkval, hN]
      exact hatt.1
    have hval : tget pf (i + 1) s
        = tget pf i k + tget M.state_transitions k s
          + tget M.emission_matrix s (obs.getD (i + 1) 0) := by
      rw [hV, ← hatt.2, ← hN, hkval]
    obtain ⟨hrl, hrlast, -⟩ := btPath_spec hrest
    have hih := ih (by omega) hk_lt hrest
    subst hcat
    have hq0 : (rest ++ [s]).getD 0 0 = rest.getD 0 0 := getD_append_lt 0 (by omega)
    have hqi1 : (rest ++ [s]).getD (i + 1) 0 = s := by
      rw [← hrl, getD_append_len]
    have hqi : (rest ++ [s]).getD i 0 = k := by
      rw [getD_append_lt 0 (by omega), hrlast]
    have htr : (List.range i).map
        (fun r => tget M.state_transitions ((rest ++ [s]).getD r 0)
          ((rest ++ [s]).getD (r + 1) 0))
        = (List.range i).map
          (fun r => tget M.state_transitions (rest.getD r 0) (rest.getD (r + 1) 0)) := by
      apply map_range_congr
      intro r hr
      rw [getD_append_lt 0 (by omega), getD_append_lt 0 (by omega)]
    have hem : (List.range (i + 1)).map
        (fun r => tget M.emission_matrix ((rest ++ [s]).getD r 0) (obs.getD r 0))
        = (List.range (i + 1)).map
          (fun r => tget M.emission_matrix (rest.getD r 0) (obs.getD r 0)) := by
      apply map_range_congr
      intro r hr
      rw [getD_append_lt 0 (by omega)]
    rw [hval, hih,
      logSum_range_succ (fun r => tget M.state_transitions ((rest ++ [s]).getD r 0)
        ((rest ++ [s]).getD (r + 1) 0)) i,
      logSum_range_succ (fun r => tget M.emission_matrix ((rest ++ [s]).getD r 0)
        (obs.getD r 0)) (i + 1),
      htr, hem, hq0, hqi, hqi1]
    apply LogProb.ext
    simp only [LogProb.add_p]
    ring

end ProfileHMM

/-! Bounds on table entries for normalized models. -/

theorem LogProb.addComm {R : Type} [ProbCarrier R] (a b : LogProb R) : a + b = b + a :=
  LogProb.ext (mul_comm a.p b.p)

theorem entry_p_le_one {R : Type} [ProbCarrier R] {row : List (LogProb R)}
    (hrow : (row.map LogProb.p).sum = 1) (j : Nat) :
    (row.getD j LogProb.ln_zero).p ≤ 1 := by
  rcases Nat.lt_or_ge j row.length with hj | hj
  · rw [List.getD_eq_getElem _ _ hj]
    calc row[j].p ≤ (row.map LogProb.p).sum := by
          refine List.single_le_sum (fun x hx => ?_) _ ?_
          · exact zero_le x
          · exact List.mem_map_of_mem LogProb.p (row.getElem_mem hj)
      _ = 1 := hrow
  · rw [List.getD_eq_default _ _ hj]
    simp

theorem sum_range_getD_le_sum {R : Type} [ProbCarrier R] (row : List (LogProb R)) (m : Nat) :
    ∑ j ∈ Finset.range m, (row.getD j LogProb.ln_zero).p ≤ (row.map LogProb.p).sum := by
  have hA : ∀ l : List (LogProb R), ∑ j ∈ Finset.range l.length, (l.getD j LogProb.ln_zero).p
      = (l.map LogProb.p).sum := by
    intro l
    induction l with
    | nil => simp
    | cons a l ihl =>
      rw [List.length_cons, Finset.sum_range_succ']
      simp only [List.getD_cons_succ, List.getD_cons_zero, ihl]
      simp [add_comm]
  rcases le_or_lt m row.length with hm | hm
  · rw [← hA row]
    exact Finset.sum_le_sum_of_subset (Finset.range_subset.mpr hm)
  · rw [← hA row]
    refine le_of_eq (Finset.sum_subset (Finset.range_subset.mpr (by omega)) ?_).symm
    intro j hj hnj
    simp only [Finset.mem_range] at hj hnj
    rw [List.getD_eq_default _ _ (by omega)]
    simp

theorem tget_eq_row {R : Type} [ProbCarrier R] {m : List (List (LogProb R))}
    {i : Nat} {row : List (LogProb R)} (h : m[i]? = some row) (j : Nat) :
    tget m i j = row.getD j LogProb.ln_zero := by
  unfold tget
  rw [getD_of_getElem?_eq_some [] h]

namespace ProfileHMM

variable {R : Type} [ProbCarrier R]

theorem trans_entry_le_one {M : ProfileHMM R} (hwf : M.WF) (hnorm : M.Normalized)
    {k : Nat} (hk : k < M.stateCount) (j : Nat) :
    (tget M.state_transitions k j).p ≤ 1 := by
  obtain ⟨row, hr, -⟩ := rows_of_len hwf.1 hwf.2.1 hk
  rw [tget_eq_row hr]
  exact entry_p_le_one (hnorm.2.1 row (mem_of_getElem?_eq_some hr)) j

theorem trans_row_head_le_one {M : ProfileHMM R} (hwf : M.WF) (hnorm : M.Normalized)
    {k : Nat} (hk : k < M.stateCount) (m : Nat) :
    ∑ j ∈ Finset.range m, (tget M.state_transitions k j).p ≤ 1 := by
  obtain ⟨row, hr, -⟩ := rows_of_len hwf.1 hwf.2.1 hk
  have : ∀ j, tget M.state_transitions k j = row.getD j LogProb.ln_zero :=
    tget_eq_row hr
  calc ∑ j ∈ Finset.range m, (tget M.state_transitions k j).p
      = ∑ j ∈ Finset.range m, (row.getD j LogProb.ln_zero).p := by
        apply Finset.sum_congr rfl
        intro j _
        rw [this j]
    _ ≤ (row.map LogProb.p).sum := sum_range_getD_le_sum row m
    _ = 1 := hnorm.2.1 row (mem_of_getElem?_eq_some hr)

theorem em_entry_le_one {M : ProfileHMM R} (hwf : M.WF) (hnorm : M.Normalized)
    {s : Nat} (hs : s < M.stateCount) (o : Nat) :
    (tget M.emission_matrix s o).p ≤ 1 := by
  obtain ⟨row, hr, -⟩ := rows_of_len hwf.2.2.1 hwf.2.2.2 hs
  rw [tget_eq_row hr]
  exact entry_p_le_one (hnorm.2.2 row (mem_of_getElem?_eq_some hr)) o

theorem init_head_le_one (M : ProfileHMM R) (hnorm : M.Normalized) (m : Nat) :
    ∑ s ∈ Finset.range m, (tget1 M.initial_states_prob s).p ≤ 1 := by
  calc ∑ s ∈ Finset.range m, (tget1 M.initial_states_prob s).p
      ≤ (M.initial_states_prob.map LogProb.p).sum :=
        sum_range_getD_le_sum M.initial_states_prob m
    _ = 1 := hnorm.1

theorem forward_rowSum_le_one {M : ProfileHMM R} {obs : List Nat}
    {ft : List (List (LogProb R))} (hwf : M.WF) (hnorm : M.Normalized)
    (hft : M.forwardTable obs = some ft) :
    ∀ t, t < obs.length → ∑ s ∈ Finset.range M.stateCount, (tget ft t s).p ≤ 1 := by
  obtain ⟨hlen, hrows, hvals⟩ := forwardTableN_spec hft
  intro t
  induction t with
  | zero =>
    intro ht
    calc ∑ s ∈ Finset.range M.stateCount, (tget ft 0 s).p
        ≤ ∑ s ∈ Finset.range M.stateCount, (tget1 M.initial_states_prob s).p := by
          apply Finset.sum_le_sum
          intro s hs
          rw [hvals 0 s ht (Finset.mem_range.mp hs), if_pos rfl]
          simp only [LogProb.add_p]
          calc (tget1 M.initial_states_prob s).p
                * (tget M.emission_matrix s (obs.getD 0 0)).p
              ≤ (tget1 M.initial_states_prob s).p * 1 :=
                mul_le_mul' (le_refl _)
                  (em_entry_le_one hwf hnorm (Finset.mem_range.mp hs) _)
            _ = (tget1 M.initial_states_prob s).p := mul_one _
      _ ≤ 1 := init_head_le_one M hnorm _
  | succ t ih =>
    intro ht
    have hprev := ih (by omega)
    calc ∑ s ∈ Finset.range M.stateCount, (tget ft (t + 1) s).p
        ≤ ∑ s ∈ Finset.range M.stateCount, ∑ k ∈ Finset.range M.stateCount,
            (tget ft t k).p * (tget M.state_transitions k s).p := by
          apply Finset.sum_le_sum
          intro s hs
          rw [hvals (t + 1) s ht (Finset.mem_range.mp hs), if_neg (by omega)]
          simp only [LogProb.add_p, logSumExp_map_range, LogProb.mk_p, Nat.add_sub_cancel]
          calc (∑ k ∈ Finset.range M.stateCount,
                  (tget ft t k).p * (tget M.state_transitions k s).p)
                * (tget M.emission_matrix s (obs.getD (t + 1) 0)).p
              ≤ (∑ k ∈ Finset.range M.stateCount,
                  (tget ft t k).p * (tget M.state_transitions k s).p) * 1 :=
                mul_le_mul' (le_refl _)
                  (em_entry_le_one hwf hnorm (Finset.mem_range.mp hs) _)
            _ = _ := mul_one _
      _ = ∑ k ∈ Finset.range M.stateCount,
            (tget ft t k).p * ∑ s ∈ Finset.range M.stateCount,
              (tget M.state_transitions k s).p := by
          rw [Finset.sum_comm]
          apply Finset.sum_congr rfl
          intro k _
          rw [Finset.mul_sum]
      _ ≤ ∑ k ∈ Finset.range M.stateCount, (tget ft t k).p * 1 := by
          apply Finset.sum_le_sum
          intro k hk
          exact mul_le_mul' (le_refl _)
            (trans_row_head_le_one hwf hnorm (Finset.mem_range.mp hk) _)
      _ = ∑ k ∈ Finset.range M.stateCount, (tget ft t k).p := by
          apply Finset.sum_congr rfl
          intro k _
          exact mul_one _
      _ ≤ 1 := hprev

theorem forward_entries_le_one {M : ProfileHMM R} {obs : List Nat}
    {ft : List (List (LogProb R))} (hwf : M.WF) (hnorm : M.Normalized)
    (hft : M.forwardTable obs = some ft) :
    ∀ t s, t < obs.length → s < M.stateCount → tget ft t s ≤ LogProb.ln_one := by
  intro t s ht hs
  rw [LogProb.le_iff_p, LogProb.ln_one_p]
  calc (tget ft t s).p
      ≤ ∑ s2 ∈ Finset.range M.stateCount, (tget ft t s2).p :=
        Finset.single_le_sum (f := fun s2 => (tget ft t s2).p)
          (fun i _ => zero_le _) (Finset.mem_range.mpr hs)
    _ ≤ 1 := forward_rowSum_le_one hwf hnorm hft t ht

theorem backward_entries_le_one {M : ProfileHMM R} {obs : List Nat}
    {bt : List (List (LogProb R))} (hwf : M.WF) (hnorm : M.Normalized)
    (hbt : M.backward obs = some bt) :
    ∀ t s, t < obs.length → s < M.stateCount → tget bt t s ≤ LogProb.ln_one := by
  obtain ⟨hlen, hrows, hbase, hrec⟩ := backward_spec_core hbt
  have key : ∀ d t s, obs.length - t = d + 1 → t < obs.length → s < M.stateCount →
      tget bt t s ≤ LogProb.ln_one := by
    intro d
    induction d with
    | zero =>
      intro t s hd ht hs
      have : t = obs.length - 1 := by omega
      subst this
      rw [hbase s hs (by omega)]
      exact le_refl _
    | succ d ihd =>
      intro t s hd ht hs
      have ht1 : t + 1 < obs.length := by omega
      rw [hrec t s ht1 hs, LogProb.le_iff_p]
      simp only [logSumExp_map_range, LogProb.mk_p, LogProb.ln_one_p]
      calc ∑ s2 ∈ Finset.range M.stateCount,
            ((tget bt (t + 1) s2 + tget M.state_transitions s s2
              + tget M.emission_matrix s2 (obs.getD (t + 1) 0)).p)
          ≤ ∑ s2 ∈ Finset.range M.stateCount, (tget M.state_transitions s s2).p := by
            apply Finset.sum_le_sum
            intro s2 hs2
            simp only [LogProb.add_p]
            have hb1 : (tget bt (t + 1) s2).p ≤ 1 := by
              have := ihd (t + 1) s2 (by omega) ht1 (Finset.mem_range.mp hs2)
              rwa [LogProb.le_iff_p, LogProb.ln_one_p] at this
            have he1 : (tget M.emission_matrix s2 (obs.getD (t + 1) 0)).p ≤ 1 :=
              em_entry_le_one hwf hnorm (Finset.mem_range.mp hs2) _
            calc (tget bt (t + 1) s2).p * (tget M.state_transitions s s2).p
                  * (tget M.emission_matrix s2 (obs.getD (t + 1) 0)).p
                ≤ 1 * (tget M.state_transitions s s2).p * 1 :=
                  mul_le_mul' (mul_le_mul' hb1 (le_refl _)) he1
              _ = (tget M.state_transitions s s2).p := by ring
        _ ≤ 1 := trans_row_head_le_one hwf hnorm hs _
  intro t s ht hs
  exact key (obs.length - t - 1) t s (by omega) ht hs

end ProfileHMM

/-! Construction of a full Viterbi run on a single-observation sequence. -/

namespace ProfileHMM

variable {R : Type} [ProbCarrier R]

theorem viterbi_single_core {M : ProfileHMM R} {o : Nat} (hsc : 0 < M.stateCount)
    (hwf : M.WF) (ho : o < M.observation_count) :
    ∃ pf s, M.viterbiTables [o] = some (pf, [[]]) ∧
      M.viterbi [o]
        = some ([s], tget1 M.initial_states_prob s + tget M.emission_matrix s o) ∧
      s < M.stateCount ∧
      (∀ k, k < M.stateCount →
        tget1 M.initial_states_prob k + tget M.emission_matrix k o
          ≤ tget1 M.initial_states_prob s + tget M.emission_matrix s o) := by
  have hrow0 : (M.viterbiRow0 [o]).isSome := by
    apply optMapRange_isSome
    intro i hi
    have h1 : M.initial_states_prob[i]? = some M.initial_states_prob[i] :=
      List.getElem?_eq_getElem hi
    obtain ⟨e, he⟩ := Option.isSome_iff_exists.mp
      (idx2_isSome_of_len hwf.2.2.1 hwf.2.2.2 hi ho)
    simp [h1, he]
  obtain ⟨r0, hr0⟩ := Option.isSome_iff_exists.mp hrow0
  obtain ⟨hr0len, hr0val⟩ := viterbiRow0_eq_some hr0
  have htab : M.viterbiTables [o] = some ([r0], [[]]) := by
    simp [viterbiTables, viterbiTablesN, optFoldRange, hr0]
  have hvget : ∀ i, i < M.stateCount →
      tget [r0] 0 i = tget1 M.initial_states_prob i + tget M.emission_matrix i o := by
    intro i hi
    have : tget [r0] 0 i = r0.getD i LogProb.ln_zero := by
      unfold tget
      rw [List.getD_cons_zero]
    rw [this, hr0val i hi]
    rfl
  have hfin : ∃ fin, viterbiFinal [r0] ([o] : List Nat).length M.stateCount = some fin := by
    apply Option.isSome_iff_exists.mp
    apply optFoldRange_map_isSome
    intro k hk
    have hr : ([r0] : List (List (LogProb R)))[0]? = some r0 := by simp
    exact idx2_isSome hr (by omega)
  obtain ⟨fin, hfin⟩ := hfin
  have hfin_eq := viterbiFinal_eq_some hfin
  have hgatt := gmax_attains (v := fun i => tget [r0] (([o] : List Nat).length - 1) i) hsc
  rw [← hfin_eq] at hgatt
  have hfin1 : fin.1 < M.stateCount := hgatt.1
  have hfin2 : fin.2 = tget1 M.initial_states_prob fin.1 + tget M.emission_matrix fin.1 o := by
    rw [← hgatt.2]
    exact hvget fin.1 hfin1
  refine ⟨[r0], fin.1, htab, ?_, hfin1, ?_⟩
  · have hfin' : viterbiFinal [r0] 1 M.stateCount = some fin := hfin
    have hv : M.viterbi [o] = some ([fin.1], fin.2) := by
      simp [viterbi, htab, hfin', usub, btPath]
    rw [hv, hfin2]
  · intro k hk
    have hle := gmax_le (v := fun i => tget [r0] (([o] : List Nat).length - 1) i) hk
    rw [← hfin_eq] at hle
    calc tget1 M.initial_states_prob k + tget M.emission_matrix k o
        = tget [r0] 0 k := (hvget k hk).symm
      _ ≤ fin.2 := hle
      _ = tget1 M.initial_states_prob fin.1 + tget M.emission_matrix fin.1 o := hfin2

end ProfileHMM

/-! The claims. -/

namespace ProfileHMM

/-- Claim C1: for every model and non-empty observation sequence, the value
written to the forward algorithm's output slot equals `logSumExp` over states
`s` of `forward[s][state_count - 1] + state_transitions[s][state_count]` — the
forward table's FIRST dimension is indexed by the state variable `s`, exactly
as in the source. -/
theorem spec_forward_aggregation {R : Type} [ProbCarrier R] {M : ProfileHMM R}
    {obs : List Nat} {ft : List (List (LogProb R))} {pr : LogProb R}
    (hobs : obs ≠ []) (h : M.forward_algorithm obs = some (ft, pr)) :
    pr = logSumExp ((List.range M.stateCount).map
      fun s => tget ft s (M.stateCount - 1)
        + tget M.state_transitions s M.stateCount) :=
  forward_aggregation_value h

theorem spec_forward_aggregation_witness :
    ([0, 1] : List Nat) ≠ [] ∧
    exampleModel.forward_algorithm [0, 1]
      = some ([[⟨4⟩, ⟨15⟩], [⟨147⟩, ⟨83⟩]], ⟨641⟩) ∧
    (⟨641⟩ : LogProb ℕ) = logSumExp ((List.range exampleModel.stateCount).map
      fun s => tget [[⟨4⟩, ⟨15⟩], [⟨147⟩, ⟨83⟩]] s (exampleModel.stateCount - 1)
        + tget exampleModel.state_transitions s exampleModel.stateCount) :=
  ⟨by decide, by decide,
    @spec_forward_aggregation ℕ _ exampleModel [0, 1]
      [[⟨4⟩, ⟨15⟩], [⟨147⟩, ⟨83⟩]] ⟨641⟩ (by decide) (by decide)⟩

/-- Claim C3: for every model and non-empty observation sequence, the returned
forward table satisfies
`forward[0][s] = initial_states_prob[s] + emission_matrix[s][observations[0]]`
and, for `t > 0`,
`forward[t][s] = emission_matrix[s][observations[t]] + logSumExp_k(forward[t-1][k] + state_transitions[k][s])`. -/
theorem spec_forward_recurrence {R : Type} [ProbCarrier R] {M : ProfileHMM R}
    {obs : List Nat} {ft : List (List (LogProb R))} {pr : LogProb R}
    (hobs : obs ≠ []) (h : M.forward_algorithm obs = some (ft, pr)) :
    (∀ s, s < M.stateCount →
      tget ft 0 s = tget1 M.initial_states_prob s
        + tget M.emission_matrix s (obs.getD 0 0)) ∧
    (∀ t s, 0 < t → t < obs.length → s < M.stateCount →
      tget ft t s = tget M.emission_matrix s (obs.getD t 0)
        + logSumExp ((List.range M.stateCount).map
            fun k => tget ft (t - 1) k + tget M.state_transitions k s)) := by
  obtain ⟨hft, -⟩ := forward_algorithm_decompose h
  obtain ⟨hlen, hrows, hvals⟩ := forwardTableN_spec hft
  have hpos : 0 < obs.length := List.length_pos.mpr hobs
  constructor
  · intro s hs
    have hval := hvals 0 s hpos hs
    rwa [if_pos rfl] at hval
  · intro t s ht htl hs
    have hval := hvals t s htl hs
    rw [if_neg (by omega)] at hval
    rw [hval, LogProb.addComm]

theorem spec_forward_recurrence_witness :
    ([0, 1] : List Nat) ≠ [] ∧
    exampleModel.forward_algorithm [0, 1]
      = some ([[⟨4⟩, ⟨15⟩], [⟨147⟩, ⟨83⟩]], ⟨641⟩) ∧
    ((∀ s, s < exampleModel.stateCount →
      tget [[⟨4⟩, ⟨15⟩], [⟨147⟩, ⟨83⟩]] 0 s
        = tget1 exampleModel.initial_states_prob s
          + tget exampleModel.emission_matrix s (([0, 1] : List Nat).getD 0 0)) ∧
    (∀ t s, 0 < t → t < ([0, 1] : List Nat).length → s < exampleModel.stateCount →
      tget [[⟨4⟩, ⟨15⟩], [⟨147⟩, ⟨83⟩]] t s
        = tget exampleModel.emission_matrix s (([0, 1] : List Nat).getD t 0)
          + logSumExp ((List.range exampleModel.stateCount).map
              fun k => tget [[⟨4⟩, ⟨15⟩], [⟨147⟩, ⟨83⟩]] (t - 1) k
                + tget exampleModel.state_transitions k s))) :=
  ⟨by decide, by decide,
    @spec_forward_recurrence ℕ _ exampleModel [0, 1]
      [[⟨4⟩, ⟨15⟩], [⟨147⟩, ⟨83⟩]] ⟨641⟩ (by decide) (by decide)⟩

/-- Claim C4: for every model and non-empty observation sequence, the returned
backward table satisfies `backward[last][s] = ln-one` for every state, and for
`t < last`,
`backward[t][s] = logSumExp_{s2}(backward[t+1][s2] + state_transitions[s][s2] + emission_matrix[s2][observations[t+1]])`;
moreover `backward` never reads the end-transition column (it is invariant
under truncating that column). -/
theorem spec_backward {R : Type} [ProbCarrier R] {M : ProfileHMM R}
    {obs : List Nat} {bt : List (List (LogProb R))}
    (hobs : obs ≠ []) (h : M.backward obs = some bt) :
    (∀ s, s < M.stateCount → tget bt (obs.length - 1) s = LogProb.ln_one) ∧
    (∀ t s, t + 1 < obs.length → s < M.stateCount →
      tget bt t s = logSumExp ((List.range M.stateCount).map
        fun s2 => tget bt (t + 1) s2 + tget M.state_transitions s s2
          + tget M.emission_matrix s2 (obs.getD (t + 1) 0))) ∧
    M.truncTrans.backward obs = M.backward obs := by
  obtain ⟨-, -, hbase, hrec⟩ := backward_spec_core h
  have hpos : 0 < obs.length := List.length_pos.mpr hobs
  exact ⟨fun s hs => hbase s hs hpos, hrec, backward_trunc M obs⟩

theorem spec_backward_witness :
    ([0, 1] : List Nat) ≠ [] ∧
    exampleModel.backward [0, 1] = some [[⟨5⟩, ⟨14⟩], [⟨1⟩, ⟨1⟩]] ∧
    ((∀ s, s < exampleModel.stateCount →
      tget [[⟨5⟩, ⟨14⟩], [⟨1⟩, ⟨1⟩]] (([0, 1] : List Nat).length - 1) s
        = LogProb.ln_one) ∧
    (∀ t s, t + 1 < ([0, 1] : List Nat).length → s < exampleModel.stateCount →
      tget [[⟨5⟩, ⟨14⟩], [⟨1⟩, ⟨1⟩]] t s
        = logSumExp ((List.range exampleModel.stateCount).map
            fun s2 => tget [[⟨5⟩, ⟨14⟩], [⟨1⟩, ⟨1⟩]] (t + 1) s2
              + tget exampleModel.state_transitions s s2
              + tget exampleModel.emission_matrix s2
                  (([0, 1] : List Nat).getD (t + 1) 0))) ∧
    exampleModel.truncTrans.backward [0, 1] = exampleModel.backward [0, 1]) :=
  ⟨by decide, by decide,
    @spec_backward ℕ _ exampleModel [0, 1] [[⟨5⟩, ⟨14⟩], [⟨1⟩, ⟨1⟩]]
      (by decide) (by decide)⟩

/-- Claim C6: for every model with row-normalized probability tables and every
non-empty in-range observation sequence, every entry of the tables returned by
the forward and backward algorithms is at most `ln-one` (probability at most
one, i.e. a valid log-probability `≤ 0`). -/
theorem spec_tables_le_one {R : Type} [ProbCarrier R] {M : ProfileHMM R}
    {obs : List Nat} (hwf : M.WF) (hnorm : M.Normalized) (hin : M.InRange obs)
    (hobs : obs ≠ []) :
    (∀ ft, M.forwardTable obs = some ft →
      ∀ t s, t < obs.length → s < M.stateCount → tget ft t s ≤ LogProb.ln_one) ∧
    (∀ bt, M.backward obs = some bt →
      ∀ t s, t < obs.length → s < M.stateCount → tget bt t s ≤ LogProb.ln_one) := by
  constructor
  · intro ft hft t s ht hs
    exact forward_entries_le_one hwf hnorm hft t s ht hs
  · intro bt hbt t s ht hs
    exact backward_entries_le_one hwf hnorm hbt t s ht hs

theorem spec_tables_le_one_witness :
    exampleModelNorm.WF ∧ exampleModelNorm.Normalized ∧
    exampleModelNorm.InRange [0, 1] ∧ ([0, 1] : List Nat) ≠ [] ∧
    ((∀ ft, exampleModelNorm.forwardTable [0, 1] = some ft →
      ∀ t s, t < ([0, 1] : List Nat).length → s < exampleModelNorm.stateCount →
        tget ft t s ≤ LogProb.ln_one) ∧
    (∀ bt, exampleModelNorm.backward [0, 1] = some bt →
      ∀ t s, t < ([0, 1] : List Nat).length → s < exampleModelNorm.stateCount →
        tget bt t s ≤ LogProb.ln_one)) :=
  ⟨by decide, by decide, by decide, by decide,
    @spec_tables_le_one ℕ _ exampleModelNorm [0, 1]
      (by decide) (by decide) (by decide) (by decide)⟩

/-- Claim C7: for every model with a positive state count, calling `viterbi`
or `forward_algorithm` on an empty observation sequence aborts with an
out-of-bounds access (modelled as `none`) rather than reporting a failure:
no input validation runs before the DP loops. -/
theorem spec_empty_obs_oob {R : Type} [ProbCarrier R] {M : ProfileHMM R}
    (hsc : 0 < M.stateCount) :
    M.viterbi ([] : List Nat) = none ∧ M.forward_algorithm ([] : List Nat) = none :=
  ⟨viterbi_none_of_empty hsc, forward_algorithm_none_of_short (by simpa using hsc)⟩

theorem spec_empty_obs_oob_witness :
    0 < exampleModel.stateCount ∧
    (exampleModel.viterbi ([] : List Nat) = none ∧
      exampleModel.forward_algorithm ([] : List Nat) = none) :=
  ⟨by decide, @spec_empty_obs_oob ℕ _ exampleModel (by decide)⟩

/-- Claim C8: under the documented model invariants and in-range symbols, the
forward algorithm's final aggregation reads `forward_table[state]` for every
state, so the call completes without an out-of-bounds access exactly when
`state_count ≤ len(observations)`; any shorter (in particular non-empty)
sequence aborts. -/
theorem spec_forward_oob_iff {R : Type} [ProbCarrier R] {M : ProfileHMM R}
    {obs : List Nat} (hwf : M.WF) (hin : M.InRange obs) :
    (M.forward_algorithm obs).isSome ↔ M.stateCount ≤ obs.length := by
  constructor
  · intro hs
    by_contra hlt
    rw [forward_algorithm_none_of_short (by omega)] at hs
    simp at hs
  · intro hle
    exact forward_algorithm_isSome hwf hin hle

theorem spec_forward_oob_iff_witness :
    exampleModel.WF ∧ exampleModel.InRange [0] ∧
    ((exampleModel.forward_algorithm [0]).isSome
      ↔ exampleModel.stateCount ≤ ([0] : List Nat).length) :=
  ⟨by decide, by decide,
    @spec_forward_oob_iff ℕ _ exampleModel [0] (by decide) (by decide)⟩

/-- Claim C9: for every model and non-empty observation sequence, the state
path returned by `viterbi` has exactly `len(observations)` elements. -/
theorem spec_viterbi_path_length {R : Type} [ProbCarrier R] {M : ProfileHMM R}
    {obs path : List Nat} {pr : LogProb R}
    (hobs : obs ≠ []) (h : M.viterbi obs = some (path, pr)) :
    path.length = obs.length := by
  obtain ⟨pf, ps, fin, last, htab, hfin, hlast, hbt, hpr⟩ := viterbi_decompose h
  obtain ⟨hlen1, hlasteq⟩ := usub_eq_some.mp hlast
  obtain ⟨hplen, -, -⟩ := btPath_spec hbt
  omega

theorem spec_viterbi_path_length_witness :
    ([0, 1] : List Nat) ≠ [] ∧
    exampleModel.viterbi [0, 1] = some ([1, 0], ⟨135⟩) ∧
    ([1, 0] : List Nat).length = ([0, 1] : List Nat).length :=
  ⟨by decide, by decide,
    @spec_viterbi_path_length ℕ _ exampleModel [0, 1] [1, 0] ⟨135⟩
      (by decide) (by decide)⟩

/-- Claim C10: for every model with a positive state count and every
single-observation sequence, `viterbi` terminates after column-0
initialization with no back-pointer ever recorded (`previous_state` holds
only its initial empty row), and returns a one-element path whose state
maximizes `initial_states_prob[s] + emission_matrix[s][observations[0]]`, with
that maximum written to the output slot. -/
theorem spec_viterbi_single_obs {R : Type} [ProbCarrier R] {M : ProfileHMM R}
    {o : Nat} (hsc : 0 < M.stateCount) (hwf : M.WF) (ho : o < M.observation_count) :
    ∃ pf s, M.viterbiTables [o] = some (pf, [[]]) ∧
      M.viterbi [o]
        = some ([s], tget1 M.initial_states_prob s + tget M.emission_matrix s o) ∧
      s < M.stateCount ∧
      (∀ k, k < M.stateCount →
        tget1 M.initial_states_prob k + tget M.emission_matrix k o
          ≤ tget1 M.initial_states_prob s + tget M.emission_matrix s o) :=
  viterbi_single_core hsc hwf ho

theorem spec_viterbi_single_obs_witness :
    0 < exampleModel.stateCount ∧ exampleModel.WF ∧ 0 < exampleModel.observation_count ∧
    (∃ pf s, exampleModel.viterbiTables [0] = some (pf, [[]]) ∧
      exampleModel.viterbi [0]
        = some ([s], tget1 exampleModel.initial_states_prob s
            + tget exampleModel.emission_matrix s 0) ∧
      s < exampleModel.stateCount ∧
      (∀ k, k < exampleModel.stateCount →
        tget1 exampleModel.initial_states_prob k + tget exampleModel.emission_matrix k 0
          ≤ tget1 exampleModel.initial_states_prob s
            + tget exampleModel.emission_matrix s 0)) :=
  ⟨by decide, by decide, by decide,
    @spec_viterbi_single_obs ℕ _ exampleModel 0 (by decide) (by decide) (by decide)⟩

end ProfileHMM

namespace ProfileHMM

/-- Claim C2: for every model and non-empty observation sequence, the
log-probability written to Viterbi's output slot equals the DP score table
entry `score[last][final_state]` for the returned final state, and also equals
the log-probability of the returned path computed directly from the
initial/transition/emission parameters; the end-transition column is never
read by `viterbi` (it is invariant under truncating that column). -/
theorem spec_viterbi_prob {R : Type} [ProbCarrier R] {M : ProfileHMM R}
    {obs path : List Nat} {pr : LogProb R} {pf : List (List (LogProb R))}
    {ps : List (List Nat)} (hobs : obs ≠ [])
    (htab : M.viterbiTables obs = some (pf, ps))
    (hv : M.viterbi obs = some (path, pr)) :
    pr = tget pf (obs.length - 1) (path.getD (obs.length - 1) 0) ∧
    pr = M.pathLogProb obs path ∧
    M.truncTrans.viterbi obs = M.viterbi obs := by
  obtain ⟨pf', ps', fin, last, htab', hfin, hlast, hbt, hpr⟩ := viterbi_decompose hv
  rw [htab, Option.some_inj] at htab'
  have hpf : pf' = pf := (congrArg Prod.fst htab').symm
  have hps : ps' = ps := (congrArg Prod.snd htab').symm
  rw [hpf] at hfin
  rw [hps] at hbt
  obtain ⟨hlen1, hlasteq⟩ := usub_eq_some.mp hlast
  obtain ⟨hplen, hplast, -⟩ := btPath_spec hbt
  have hfin_eq := viterbiFinal_eq_some hfin
  have hmain : pr = tget pf (obs.length - 1) (path.getD (obs.length - 1) 0) ∧
      pr = M.pathLogProb obs path := by
    rcases Nat.eq_zero_or_pos M.stateCount with hsc0 | hsc
    · have hfin0 : fin = (0, LogProb.ln_zero) := by
        rw [hfin_eq, hsc0]
        rfl
      obtain ⟨hpflen, hpslen, hpfrows, hps0, hpsrows, -, -⟩ := viterbiTablesN_spec htab
      have hlast0 : last = 0 := by
        by_contra hne
        obtain ⟨l, hl⟩ : ∃ l, last = l + 1 := ⟨last - 1, by omega⟩
        rw [hl] at hbt
        simp only [btPath, Option.bind_eq_bind, Option.bind_eq_some] at hbt
        obtain ⟨k, hk, -⟩ := hbt
        obtain ⟨row, hrow, hrowlen⟩ := hpsrows (l + 1) (by omega) (by omega)
        have hrow0 : row = [] := List.length_eq_zero.mp (by omega)
        unfold idx2 at hk
        rw [hrow, hrow0] at hk
        simp at hk
      have hlen1' : obs.length = 1 := by omega
      rw [hlast0] at hbt
      simp only [btPath, Option.some_inj] at hbt
      have hfin1 : fin.1 = 0 := by rw [hfin0]
      have hpath : path = [0] := by rw [← hbt, hfin1]
      have hprz : pr = LogProb.ln_zero := by rw [hpr, hfin0]
      obtain ⟨row, hrow, hrowlen⟩ := hpfrows 0 (by omega)
      have hrow0 : row = [] := List.length_eq_zero.mp (by omega)
      have htg : tget pf 0 0 = LogProb.ln_zero := by
        rw [tget_eq_row hrow, hrow0]
        rfl
      have hinit : M.initial_states_prob = [] := List.length_eq_zero.mp hsc0
      constructor
      · rw [hprz, hpath, hlen1']
        exact htg.symm
      · rw [hprz, hpath]
        unfold pathLogProb
        rw [hinit, hlen1']
        apply LogProb.ext
        simp [tget1, logSum]
    · have hgatt := gmax_attains (v := fun i => tget pf (obs.length - 1) i) hsc
      rw [← hfin_eq] at hgatt
      have hpl : path.getD (obs.length - 1) 0 = fin.1 := by
        rw [← hlasteq]
        exact hplast
      have hsc1 : pr = tget pf (obs.length - 1) (path.getD (obs.length - 1) 0) := by
        rw [hpr, hpl, ← hgatt.2]
      refine ⟨hsc1, ?_⟩
      have hscore := btPath_score htab (i := last) (by omega) hgatt.1 hbt
      have h2 : last + 1 = obs.length := by omega
      rw [hsc1, hpl, ← hlasteq, hscore]
      unfold pathLogProb
      rw [← hlasteq, h2]
  exact ⟨hmain.1, hmain.2, viterbi_trunc M obs⟩

theorem spec_viterbi_prob_witness :
    ([0, 1] : List Nat) ≠ [] ∧
    exampleModel.viterbiTables [0, 1]
      = some ([[⟨4⟩, ⟨15⟩], [⟨135⟩, ⟨75⟩]], [[], [1, 1]]) ∧
    exampleModel.viterbi [0, 1] = some ([1, 0], ⟨135⟩) ∧
    ((⟨135⟩ : LogProb ℕ)
        = tget [[⟨4⟩, ⟨15⟩], [⟨135⟩, ⟨75⟩]] (([0, 1] : List Nat).length - 1)
            (([1, 0] : List Nat).getD (([0, 1] : List Nat).length - 1) 0) ∧
      (⟨135⟩ : LogProb ℕ) = exampleModel.pathLogProb [0, 1] [1, 0] ∧
      exampleModel.truncTrans.viterbi [0, 1] = exampleModel.viterbi [0, 1]) :=
  ⟨by decide, by decide, by decide,
    @spec_viterbi_prob ℕ _ exampleModel [0, 1] [1, 0] ⟨135⟩
      [[⟨4⟩, ⟨15⟩], [⟨135⟩, ⟨75⟩]] [[], [1, 1]] (by decide) (by decide) (by decide)⟩

/-- Claim C5: in Viterbi's recurrence for column `i > 0` and destination `j`,
the back-pointer `prev[i][j]` records the SMALLEST `k` attaining
`max_k(score[i-1][k] + state_transitions[k][j])` (strict greater-than
comparison, so the earliest-seen maximizer wins ties), whereas the termination
step scans with greater-or-equal, so the returned final state is the LARGEST
maximizer of the last score column — a different tie rule. -/
theorem spec_viterbi_tie_rules {R : Type} [ProbCarrier R] {M : ProfileHMM R}
    {obs path : List Nat} {pr : LogProb R} {pf : List (List (LogProb R))}
    {ps : List (List Nat)}
    (htab : M.viterbiTables obs = some (pf, ps))
    (hv : M.viterbi obs = some (path, pr)) :
    (∀ i j, 1 ≤ i → i < obs.length → j < M.stateCount →
      tgetN ps i j < M.stateCount ∧
      (∀ k, k < M.stateCount →
        tget pf (i - 1) k + tget M.state_transitions k j
          ≤ tget pf (i - 1) (tgetN ps i j)
            + tget M.state_transitions (tgetN ps i j) j) ∧
      (∀ k, k < tgetN ps i j →
        tget pf (i - 1) k + tget M.state_transitions k j
          < tget pf (i - 1) (tgetN ps i j)
            + tget M.state_transitions (tgetN ps i j) j)) ∧
    (∀ s, s < M.stateCount → tget pf (obs.length - 1) s ≤ pr) ∧
    (∀ s, s < M.stateCount → tget pf (obs.length - 1) s = pr →
      s ≤ path.getD (obs.length - 1) 0) := by
  obtain ⟨pf', ps', fin, last, htab', hfin, hlast, hbt, hpr⟩ := viterbi_decompose hv
  rw [htab, Option.some_inj] at htab'
  have hpf : pf' = pf := (congrArg Prod.fst htab').symm
  have hps : ps' = ps := (congrArg Prod.snd htab').symm
  rw [hpf] at hfin
  rw [hps] at hbt
  obtain ⟨hlen1, hlasteq⟩ := usub_eq_some.mp hlast
  obtain ⟨hplen, hplast, -⟩ := btPath_spec hbt
  have hfin_eq := viterbiFinal_eq_some hfin
  obtain ⟨-, -, -, -, -, -, hrec⟩ := viterbiTablesN_spec htab
  refine ⟨?_, ?_, ?_⟩
  · intro i j hi1 hi2 hj
    obtain ⟨hN, -⟩ := hrec i j hi1 (by omega) hj
    have hsc : 0 < M.stateCount := by omega
    have hatt := amax_attains
      (v := fun k => tget pf (i - 1) k + tget M.state_transitions k j) hsc
    refine ⟨by rw [hN]; exact hatt.1, ?_, ?_⟩
    · intro k hk
      calc tget pf (i - 1) k + tget M.state_transitions k j
          ≤ (amax (fun k => tget pf (i - 1) k + tget M.state_transitions k j)
              M.stateCount).2 :=
            amax_le (v := fun k => tget pf (i - 1) k + tget M.state_transitions k j) hk
        _ = tget pf (i - 1) (tgetN ps i j)
            + tget M.state_transitions (tgetN ps i j) j := by
            rw [← hatt.2, hN]
    · intro k hk
      rw [hN] at hk
      calc tget pf (i - 1) k + tget M.state_transitions k j
          < (amax (fun k => tget pf (i - 1) k + tget M.state_transitions k j)
              M.stateCount).2 := amax_least hk
        _ = tget pf (i - 1) (tgetN ps i j)
            + tget M.state_transitions (tgetN ps i j) j := by
            rw [← hatt.2, hN]
  · intro s hs
    have hle := gmax_le (v := fun i => tget pf (obs.length - 1) i) hs
    rw [← hfin_eq] at hle
    rw [hpr]
    exact hle
  · intro s hs heq
    have hpl : path.getD (obs.length - 1) 0 = fin.1 := by
      rw [← hlasteq]
      exact hplast
    rw [hpl]
    by_contra hlt
    have hgt : fin.1 < s := by omega
    have hgg := gmax_greatest (v := fun i => tget pf (obs.length - 1) i)
      (by rw [← hfin_eq]; exact hgt) hs
    rw [← hfin_eq] at hgg
    have hgg' : tget pf (obs.length - 1) s < fin.2 := hgg
    rw [heq, hpr] at hgg'
    exact absurd hgg' (lt_irrefl _)

theorem spec_viterbi_tie_rules_witness :
    exampleModel.viterbiTables [0, 1]
      = some ([[⟨4⟩, ⟨15⟩], [⟨135⟩, ⟨75⟩]], [[], [1, 1]]) ∧
    exampleModel.viterbi [0, 1] = some ([1, 0], ⟨135⟩) ∧
    ((∀ i j, 1 ≤ i → i < ([0, 1] : List Nat).length → j < exampleModel.stateCount →
      tgetN [[], [1, 1]] i j < exampleModel.stateCount ∧
      (∀ k, k < exampleModel.stateCount →
        tget [[⟨4⟩, ⟨15⟩], [⟨135⟩, ⟨75⟩]] (i - 1) k
            + tget exampleModel.state_transitions k j
          ≤ tget [[⟨4⟩, ⟨15⟩], [⟨135⟩, ⟨75⟩]] (i - 1) (tgetN [[], [1, 1]] i j)
            + tget exampleModel.state_transitions (tgetN [[], [1, 1]] i j) j) ∧
      (∀ k, k < tgetN [[], [1, 1]] i j →
        tget [[⟨4⟩, ⟨15⟩], [⟨135⟩, ⟨75⟩]] (i - 1) k
            + tget exampleModel.state_transitions k j
          < tget [[⟨4⟩, ⟨15⟩], [⟨135⟩, ⟨75⟩]] (i - 1) (tgetN [[], [1, 1]] i j)
            + tget exampleModel.state_transitions (tgetN [[], [1, 1]] i j) j)) ∧
    (∀ s, s < exampleModel.stateCount →
      tget [[⟨4⟩, ⟨15⟩], [⟨135⟩, ⟨75⟩]] (([0, 1] : List Nat).length - 1) s
        ≤ (⟨135⟩ : LogProb ℕ)) ∧
    (∀ s, s < exampleModel.stateCount →
      tget [[⟨4⟩, ⟨15⟩], [⟨135⟩, ⟨75⟩]] (([0, 1] : List Nat).length - 1) s
          = (⟨135⟩ : LogProb ℕ) →
      s ≤ ([1, 0] : List Nat).getD (([0, 1] : List Nat).length - 1) 0)) :=
  ⟨by decide, by decide,
    @spec_viterbi_tie_rules ℕ _ exampleModel [0, 1] [1, 0] ⟨135⟩
      [[⟨4⟩, ⟨15⟩], [⟨135⟩, ⟨75⟩]] [[], [1, 1]] (by decide) (by decide)⟩

end ProfileHMM
